import Mathlib

/-!
Shallow embedding of the numerical-solver layer of `eom_umrcc.py` and proofs
about the claims of the specification.

Embedding conventions, used uniformly below:

* Machine floats are modelled by an arbitrary linear ordered field `α`
  (instantiated at `ℚ` for concrete evaluations and at `ℝ` where a square
  root is computed by the code itself).  Claims about "numerical tolerance"
  are settled in exact arithmetic.
* External library calls are oracles: `np.linalg.eigh` is represented by its
  output `(eigval, eigvec)` passed as parameters, constrained by the
  hypotheses `S = U * diagonal Λ * Uᵀ` and `Uᵀ * U = 1` (the documented
  contract of `eigh`); `np.linalg.solve` by its output vector constrained by
  the linear equation it solves; `np.linalg.inv` by a matrix constrained by
  `Yinv * Y = 1`; `1.0/np.sqrt` applied to retained eigenvalues by a function
  `sq` constrained by `sq k * sq k = Λ k`; the `forte` sparse-operator
  backend (`overlap`, `apply_operator`, `SparseExp.compute`,
  `SparseHamiltonian.compute`, state vectors) by opaque function parameters
  over an arbitrary state type `V`, with no algebraic assumptions, matching
  the spec's statement that screening makes backend results only
  approximately symmetric.
* Column masking `eigvec[:, eigval > thres]` is modelled by the ordered list
  of retained indices (`keptList`); slicing `eigvec[:, -num:]` by dropping
  the first `n - num` indices (`keptListConst`), which also reproduces
  numpy's clamping when `num > n`.
* `itertools.combinations l k` is modelled by `List.sublistsLen k l`: both
  enumerate exactly the order-preserving k-element selections of `l` (only
  the enumeration order differs, which no claim depends on).
-/

/-! ### Section 1: symmetry product and the excitation-manifold generator
(`sym_dir_prod`, `EOM_MRCC.initialize_op`, lines 281-288 and 698-843). -/

open Matrix

/-- Embedding of `sym_dir_prod(occ_list, sym_list)`: the XOR-reduction of the
symmetry labels `sym_list[x]` over `x ∈ occ_list`, with the empty list mapped
to 0 and a singleton to its own label, mirroring the three branches of the
source. -/
def sym_dir_prod (occ_list : List ℕ) (sym_list : List ℕ) : ℕ :=
  match occ_list with
  | [] => 0
  | [x] => sym_list.getD x 0
  | x :: xs => (xs.map fun y => sym_list.getD y 0).foldl (· ^^^ ·) (sym_list.getD x 0)

/-- XOR-fold of a list of labels with initial value 0. -/
def foldXor (l : List ℕ) : ℕ := l.foldl (· ^^^ ·) 0

/-- One leg of an excitation operator: `(creation, alpha, orb)` exactly as the
triplets built in `initialize_op`. -/
abbrev OpLeg : Type := Bool × Bool × ℕ

/-- The operator triplet list `l` built from the chosen alpha-occupied,
beta-occupied, beta-virtual and alpha-virtual orbital combinations (source
lines 734-738: occupied legs in order, then the reversed virtual legs). -/
def legList (ao bo bv av : List ℕ) : List OpLeg :=
  (ao.map fun i => (false, true, i)) ++ (bo.map fun i => (false, false, i))
    ++ (bv.reverse.map fun a => (true, false, a))
    ++ (av.reverse.map fun a => (true, true, a))

/-- Number of legs of `l` whose orbital lies in the active space. -/
def countAct (act : List ℕ) (l : List OpLeg) : ℕ :=
  (l.filter fun item => act.contains item.2.2).length

/-- The GNO-mode reordering/skipping of a double excitation (source lines
753-780): when the operator has rank 2 and at least two active legs, a single
active leg among the two occupied legs `l[:2]` must sit at position 0 (at
position 0 the operator is skipped via `continue`, at position 1 the two legs
are swapped, i.e. the prefix is reversed) and a single active leg among the
two virtual legs `l[2:]` at position 1 (position 1 skips, position 0 swaps).
`none` models the `continue` statements; in the source `l` always has exactly
four legs here, so `take 2`/`drop 2` are exactly `l[:2]`/`l[2:]`. -/
def gnoAdjust (act : List ℕ) (n : ℕ) (l : List OpLeg) : Option (List OpLeg) :=
  if n = 2 ∧ 2 ≤ countAct act l then
    (if countAct act (l.take 2) = 1 then
        (if act.contains (((l.take 2).getD 0 (false, false, 0)).2.2) then none
         else some (l.take 2).reverse)
      else some (l.take 2)).bind fun occPart =>
      (if countAct act (l.drop 2) = 1 then
          (if act.contains (((l.drop 2).getD 1 (false, false, 0)).2.2) then none
           else some (l.drop 2).reverse)
        else some (l.drop 2)).map fun virPart => occPart ++ virPart
  else some l

/-- The nested enumeration loops of `initialize_op` (lines 713-727): total
rank `n` from 1 to `max_exc`, beta rank `nb` from 0 to `n`, and all
combinations of `n - nb` alpha-occupied/virtual and `nb`
beta-occupied/virtual orbitals. -/
def excitationTuples (hole particle : List ℕ) (max_exc : ℕ) :
    List (ℕ × List ℕ × List ℕ × List ℕ × List ℕ) :=
  (List.range' 1 max_exc).flatMap fun n =>
    (List.range (n + 1)).flatMap fun nb =>
      (List.sublistsLen (n - nb) hole).flatMap fun ao =>
        (List.sublistsLen (n - nb) particle).flatMap fun av =>
          (List.sublistsLen nb hole).flatMap fun bo =>
            (List.sublistsLen nb particle).map fun bv => (n, ao, av, bo, bv)

/-- The loop body of `initialize_op` for one candidate tuple: the symmetry
filter `ao_sym ^ av_sym ^ bo_sym ^ bv_sym == self.sym` (line 729), the
internal-excitation filter `not all_in_act or self.add_int` (lines 739-740)
and, in GNO mode, the reorder/skip logic; returns the emitted triplet list or
`none` when the candidate is discarded. -/
def emitOne (act all_sym : List ℕ) (sym : ℕ) (add_int gno : Bool)
    (c : ℕ × List ℕ × List ℕ × List ℕ × List ℕ) : Option (List OpLeg) :=
  let (n, ao, av, bo, bv) := c
  if sym_dir_prod ao all_sym ^^^ sym_dir_prod av all_sym
      ^^^ sym_dir_prod bo all_sym ^^^ sym_dir_prod bv all_sym = sym then
    let l := legList ao bo bv av
    if !(l.all fun item => act.contains item.2.2) || add_int then
      if gno then gnoAdjust act n l else some l
    else none
  else none

/-- The ordered list of excitation-operator triplet lists emitted by
`initialize_op` (each one is the `l` passed to `add_term`). -/
def initialize_op_ops (hole particle act all_sym : List ℕ) (sym max_exc : ℕ)
    (add_int gno : Bool) : List (List OpLeg) :=
  (excitationTuples hole particle max_exc).filterMap
    (emitOne act all_sym sym add_int gno)

/-- XOR-reduction of the per-orbital symmetry labels over all legs of an
emitted operator. -/
def legSym (all_sym : List ℕ) (l : List OpLeg) : ℕ :=
  foldXor (l.map fun item => all_sym.getD item.2.2 0)

/-- State of the DIIS accelerator: the stored amplitude history `t_diis`
(seeded with the initial amplitudes), the error-vector history `e_diis`, and
the `diis_start` parameter (−1 disables DIIS). -/
structure DIIS (α : Type) where
  t_diis : List (List α)
  e_diis : List (List α)
  diis_start : ℤ

/-- Embedding of `DIIS.__init__(t, diis_start)`. -/
def DIIS.init {α : Type} (t : List α) (diis_start : ℤ) : DIIS α :=
  ⟨[t], [], diis_start⟩

/-- Dot product of two stored vectors, `np.dot` on lists. -/
def dotList {α : Type} [LinearOrderedField α] (a b : List α) : α :=
  (List.zipWith (· * ·) a b).sum

/-- Embedding of `DIIS.update(t, t_old)`.  Returns the updated DIIS state
together with the returned amplitudes.  `np.linalg.solve` on the DIIS B
matrix is the oracle parameter `solve` (the extrapolation branch is not
exercised by any claim, but is embedded for completeness: the B matrix of
error-vector dot products with a −1 border and 0 corner, the normalization
of the non-border block by its largest absolute entry, and the linear
combination of past amplitude vectors by the solution weights). -/
def DIIS.update {α : Type} [LinearOrderedField α] (d : DIIS α)
    (solve : (ℕ → ℕ → α) → (ℕ → α) → (ℕ → α)) (t t_old : List α) :
    DIIS α × List α :=
  if d.diis_start = -1 then (d, t)
  else
    let t_diis' := d.t_diis ++ [t]
    let e_diis' := d.e_diis ++ [t.zipWith (· - ·) t_old]
    let d' : DIIS α := ⟨t_diis', e_diis', d.diis_start⟩
    let diis_dim : ℕ := t_diis'.length - 1
    if d.diis_start ≤ (diis_dim : ℤ) ∧ diis_dim < t.length then
      let B0 : ℕ → ℕ → α := fun i j =>
        if i < e_diis'.length ∧ j < e_diis'.length then
          dotList (e_diis'.getD i []) (e_diis'.getD j [])
        else if i = diis_dim ∧ j = diis_dim then 0 else -1
      let mx : α := ((List.range diis_dim).flatMap fun i =>
        (List.range diis_dim).map fun j => |B0 i j|).foldl max 0
      let B : ℕ → ℕ → α := fun i j =>
        if i < diis_dim ∧ j < diis_dim then B0 i j / mx else B0 i j
      let bsol : ℕ → α := fun i => if i = diis_dim then -1 else 0
      let x := solve B bsol
      let t_new := (List.range diis_dim).foldl
        (fun acc lidx => List.zipWith (· + ·) acc
          ((t_diis'.getD (lidx + 1) []).map fun v => x lidx * v))
        (List.replicate t.length 0)
      (d', t_new)
    else (d', t)

section OrthogonalizationDefs

variable {α : Type} [LinearOrderedField α]

open Matrix

/-- Retained eigenvalue indices in threshold mode: the mask
`eigval > thres`, as the ordered list of indices where it holds. -/
def keptList {n : ℕ} (eigval : Fin n → α) (thres : α) : List (Fin n) :=
  (List.finRange n).filter fun i => decide (thres < eigval i)

/-- Retained indices in fixed retained-count mode: the column slice
`eigvec[:, -num_op:]`, i.e. the last `num_op` positions (all of them when
`num_op > n`, matching numpy slice clamping). -/
def keptListConst (n num_op : ℕ) : List (Fin n) :=
  (List.finRange n).drop (n - num_op)

/-- The retained index list of `orthogonalization` in either mode. -/
def keptOf {n : ℕ} (const_num_op : Bool) (num_op : ℕ) (eigval : Fin n → α)
    (thres : α) : List (Fin n) :=
  if const_num_op then keptListConst n num_op else keptList eigval thres

/-- The column-selection-and-rescaling matrix: column `c < kept.length` picks
basis vector `kept[c]` scaled by `1 / sq kept[c]`; later columns are zero. -/
def selMat {n : ℕ} (sq : Fin n → α) (kept : List (Fin n)) :
    Matrix (Fin n) (Fin n) α :=
  Matrix.of fun k c =>
    if h : (c : ℕ) < kept.length then
      (if k = kept.get ⟨c, h⟩ then (sq k)⁻¹ else 0)
    else 0

/-- The transformation matrix `X`: `X[:, :numnonred] = U_kept @ diag(1/sq)`,
zero beyond (source lines 177-187). -/
def buildX {n : ℕ} (U : Matrix (Fin n) (Fin n) α) (sq : Fin n → α)
    (kept : List (Fin n)) : Matrix (Fin n) (Fin n) α :=
  Matrix.of fun i c =>
    if h : (c : ℕ) < kept.length then
      U i (kept.get ⟨c, h⟩) / sq (kept.get ⟨c, h⟩)
    else 0

/-- The projector `P = U_kept @ U_kept.T` (source lines 181 and 188). -/
def buildP {n m : ℕ} (U : Matrix (Fin n) (Fin m) α) (kept : List (Fin m)) :
    Matrix (Fin n) (Fin n) α :=
  Matrix.of fun i j => (kept.map fun k => U i k * U j k).sum

end OrthogonalizationDefs

section OrthoVariantsDefs

variable {α : Type} [LinearOrderedField α]

open Matrix

/-- The retained rank returned by `orthogonalization` (lines 176/183): the
caller-supplied `num_op` in fixed-count mode, otherwise the number of
eigenvalues above the threshold. -/
def orthogonalization_numnonred {n : ℕ} (const_num_op : Bool) (num_op : ℕ)
    (eigval : Fin n → α) (thres : α) : ℕ :=
  if const_num_op then num_op else (keptList eigval thres).length

/-- The `X` matrix returned by `orthogonalization` in either mode. -/
def orthogonalization_X {n : ℕ} (eigvec : Matrix (Fin n) (Fin n) α)
    (eigval sq : Fin n → α) (thres : α) (const_num_op : Bool) (num_op : ℕ) :
    Matrix (Fin n) (Fin n) α :=
  buildX eigvec sq (keptOf const_num_op num_op eigval thres)

/-- The projector `P = U @ U.T` returned by `orthogonalization`. -/
def orthogonalization_P {n : ℕ} (eigvec : Matrix (Fin n) (Fin n) α)
    (eigval : Fin n → α) (thres : α) (const_num_op : Bool) (num_op : ℕ) :
    Matrix (Fin n) (Fin n) α :=
  buildP eigvec (keptOf const_num_op num_op eigval thres)

/-- Full return value `(P, S, X, numnonred)` of `orthogonalization` (direct
variant), with the metric `S` and the `eigh` output as oracle inputs. -/
def orthogonalization {n : ℕ} (S eigvec : Matrix (Fin n) (Fin n) α)
    (eigval sq : Fin n → α) (thres : α) (const_num_op : Bool) (num_op : ℕ) :
    Matrix (Fin n) (Fin n) α × Matrix (Fin n) (Fin n) α
      × Matrix (Fin n) (Fin n) α × ℕ :=
  (orthogonalization_P eigvec eigval thres const_num_op num_op, S,
    orthogonalization_X eigvec eigval sq thres const_num_op num_op,
    orthogonalization_numnonred const_num_op num_op eigval thres)

/-- Transformed metric of the GNO variant, `S_GNO = Y.T @ S @ Y` (line 258). -/
def S_GNO {n : ℕ} (S Y : Matrix (Fin n) (Fin n) α) : Matrix (Fin n) (Fin n) α :=
  Yᵀ * S * Y

/-- Retained rank of the GNO variant (line 262). -/
def orthogonalization_GNO_numnonred {n : ℕ} (eigval : Fin n → α) (thres : α) : ℕ :=
  (keptList eigval thres).length

/-- The GNO `X` matrix, `X[:, :numnonred] = Y @ U @ diag(1/sq)` (line 268). -/
def orthogonalization_GNO_X {n : ℕ} (Y eigvec : Matrix (Fin n) (Fin n) α)
    (eigval sq : Fin n → α) (thres : α) : Matrix (Fin n) (Fin n) α :=
  Y * buildX eigvec sq (keptList eigval thres)

/-- The GNO projector `P = Y @ U @ U.T @ Y_inv` (line 270), with
`np.linalg.inv(Y)` as the oracle input `Yinv`. -/
def orthogonalization_GNO_P {n : ℕ} (Y Yinv eigvec : Matrix (Fin n) (Fin n) α)
    (eigval : Fin n → α) (thres : α) : Matrix (Fin n) (Fin n) α :=
  Y * buildP eigvec (keptList eigval thres) * Yinv

/-- Full return value `(P, S, X, numnonred)` of `orthogonalization_GNO`,
where `(eigval, eigvec)` is the oracle eigendecomposition of `S_GNO S Y`. -/
def orthogonalization_GNO {n : ℕ} (S Y Yinv eigvec : Matrix (Fin n) (Fin n) α)
    (eigval sq : Fin n → α) (thres : α) :
    Matrix (Fin n) (Fin n) α × Matrix (Fin n) (Fin n) α
      × Matrix (Fin n) (Fin n) α × ℕ :=
  (orthogonalization_GNO_P Y Yinv eigvec eigval thres, S,
    orthogonalization_GNO_X Y eigvec eigval sq thres,
    orthogonalization_GNO_numnonred eigval thres)

/-- Row embedding of the single-excitation block: the `n × namps_1` matrix
with an identity block on top (used for the zero-padding of `X1` and `U1`
in lines 211-216). -/
def embedMat (n1 n2 : ℕ) : Matrix (Fin (n1 + n2)) (Fin n1) α :=
  Matrix.of fun i a => if (i : ℕ) = (a : ℕ) then 1 else 0

/-- The single-excitation block `S1 = S[:namps_1, :namps_1]` (line 208). -/
def S1block {n1 n2 : ℕ} (S : Matrix (Fin (n1 + n2)) (Fin (n1 + n2)) α) :
    Matrix (Fin n1) (Fin n1) α :=
  S.submatrix (Fin.castAdd n2) (Fin.castAdd n2)

/-- The padded single-block transformation `X1` (lines 211-216), with the
`eigh` output `(Λ1, U1)` for `S1` and the square roots `sq1` as oracles. -/
def X1proj (n1 n2 : ℕ) (U1 : Matrix (Fin n1) (Fin n1) α) (Λ1 sq1 : Fin n1 → α)
    (thres : α) : Matrix (Fin (n1 + n2)) (Fin n1) α :=
  embedMat n1 n2 * buildX U1 sq1 (keptList Λ1 thres)

/-- The complement projector `Q = I - X1 @ X1.T @ S` (lines 219-221). -/
def Qproj (n1 n2 : ℕ) (S : Matrix (Fin (n1 + n2)) (Fin (n1 + n2)) α)
    (U1 : Matrix (Fin n1) (Fin n1) α) (Λ1 sq1 : Fin n1 → α) (thres : α) :
    Matrix (Fin (n1 + n2)) (Fin (n1 + n2)) α :=
  1 - X1proj n1 n2 U1 Λ1 sq1 thres * (X1proj n1 n2 U1 Λ1 sq1 thres)ᵀ * S

/-- The projected double-block metric `S2 = Q.T @ S @ Q` (line 223). -/
def S2proj (n1 n2 : ℕ) (S : Matrix (Fin (n1 + n2)) (Fin (n1 + n2)) α)
    (U1 : Matrix (Fin n1) (Fin n1) α) (Λ1 sq1 : Fin n1 → α) (thres : α) :
    Matrix (Fin (n1 + n2)) (Fin (n1 + n2)) α :=
  (Qproj n1 n2 S U1 Λ1 sq1 thres)ᵀ * S * Qproj n1 n2 S U1 Λ1 sq1 thres

/-- The double-block transformation `X2 = Q @ U2_kept @ diag(1/sq2)`
(lines 226-230), with the `eigh` output `(Λ2, U2)` for `S2` as oracle. -/
def X2proj (n1 n2 : ℕ) (S : Matrix (Fin (n1 + n2)) (Fin (n1 + n2)) α)
    (U1 : Matrix (Fin n1) (Fin n1) α) (Λ1 sq1 : Fin n1 → α)
    (U2 : Matrix (Fin (n1 + n2)) (Fin (n1 + n2)) α) (Λ2 sq2 : Fin (n1 + n2) → α)
    (thres : α) : Matrix (Fin (n1 + n2)) (Fin (n1 + n2)) α :=
  Qproj n1 n2 S U1 Λ1 sq1 thres * buildX U2 sq2 (keptList Λ2 thres)

/-- The retained rank of the projective variant (line 235):
`numnonred = X12.shape[1] = namps_1 + numnonred2`, where `namps_1` counts
all single-block columns of `X1` (including its zero columns). -/
def orthogonalization_projective_numnonred (n1 n2 : ℕ)
    (Λ2 : Fin (n1 + n2) → α) (thres : α) : ℕ :=
  n1 + (keptList Λ2 thres).length

/-- The concatenated transformation `X` of the projective variant
(lines 233-236): the first `namps_1` columns are `X1`, the next `numnonred2`
columns are `X2`, and the rest are zero. -/
def orthogonalization_projective_X (n1 n2 : ℕ)
    (S : Matrix (Fin (n1 + n2)) (Fin (n1 + n2)) α)
    (U1 : Matrix (Fin n1) (Fin n1) α) (Λ1 sq1 : Fin n1 → α)
    (U2 : Matrix (Fin (n1 + n2)) (Fin (n1 + n2)) α) (Λ2 sq2 : Fin (n1 + n2) → α)
    (thres : α) : Matrix (Fin (n1 + n2)) (Fin (n1 + n2)) α :=
  Matrix.of fun i c =>
    if h : (c : ℕ) < n1 then X1proj n1 n2 U1 Λ1 sq1 thres i ⟨(c : ℕ), h⟩
    else X2proj n1 n2 S U1 Λ1 sq1 U2 Λ2 sq2 thres i
      ⟨(c : ℕ) - n1, lt_of_le_of_lt (Nat.sub_le _ _) c.isLt⟩

/-- The projector `P = U @ U.T` of the projective variant (lines 234/239),
with `U = [U1_padded | Q @ U2_kept]`. -/
def orthogonalization_projective_P (n1 n2 : ℕ)
    (S : Matrix (Fin (n1 + n2)) (Fin (n1 + n2)) α)
    (U1 : Matrix (Fin n1) (Fin n1) α) (Λ1 sq1 : Fin n1 → α)
    (U2 : Matrix (Fin (n1 + n2)) (Fin (n1 + n2)) α) (Λ2 : Fin (n1 + n2) → α)
    (thres : α) : Matrix (Fin (n1 + n2)) (Fin (n1 + n2)) α :=
  buildP (embedMat n1 n2 * U1) (keptList Λ1 thres)
    + buildP (Qproj n1 n2 S U1 Λ1 sq1 thres * U2) (keptList Λ2 thres)

/-- Full return value `(P, S, X, numnonred)` of
`orthogonalization_projective`. -/
def orthogonalization_projective (n1 n2 : ℕ)
    (S : Matrix (Fin (n1 + n2)) (Fin (n1 + n2)) α)
    (U1 : Matrix (Fin n1) (Fin n1) α) (Λ1 sq1 : Fin n1 → α)
    (U2 : Matrix (Fin (n1 + n2)) (Fin (n1 + n2)) α) (Λ2 sq2 : Fin (n1 + n2) → α)
    (thres : α) :
    Matrix (Fin (n1 + n2)) (Fin (n1 + n2)) α
      × Matrix (Fin (n1 + n2)) (Fin (n1 + n2)) α
      × Matrix (Fin (n1 + n2)) (Fin (n1 + n2)) α × ℕ :=
  (orthogonalization_projective_P n1 n2 S U1 Λ1 sq1 U2 Λ2 thres, S,
    orthogonalization_projective_X n1 n2 S U1 Λ1 sq1 U2 Λ2 sq2 thres,
    orthogonalization_projective_numnonred n1 n2 Λ2 thres)

end OrthoVariantsDefs

section ProjLemmasDefs

variable {α : Type} [LinearOrderedField α]

open Matrix

/-- Column router placing a matrix's column `d` at concatenated position
`d + n1`, used to express the column concatenation `[X1 | X2]`. -/
def shiftMat (n1 n2 : ℕ) : Matrix (Fin (n1 + n2)) (Fin (n1 + n2)) α :=
  Matrix.of fun d c => if (c : ℕ) = (d : ℕ) + n1 then 1 else 0

end ProjLemmasDefs

/-- Metric of the projective counterexample: a basis of two single
excitations (one of them the zero vector) and one orthonormal double. -/
def C1c_S : Matrix (Fin (2 + 1)) (Fin (2 + 1)) ℚ :=
  Matrix.of fun i j => if i = j ∧ (i : ℕ) ≠ 1 then 1 else 0

/-- Eigenvectors of the single block `diag(1, 0)` in ascending eigenvalue
order: the antidiagonal permutation matrix. -/
def C1c_U1 : Matrix (Fin 2) (Fin 2) ℚ :=
  Matrix.of fun i j => if (i : ℕ) + (j : ℕ) = 1 then 1 else 0

/-- Metric of the direct-variant witness: a single basis vector of norm 4. -/
def C1w_S : Matrix (Fin 1) (Fin 1) ℚ := Matrix.of fun _ _ => 4

/-- GNO connector of the GNO witness: the unit upper-triangular matrix. -/
def C1w_Y : Matrix (Fin 2) (Fin 2) ℚ :=
  Matrix.of fun i j => if (i : ℕ) ≤ (j : ℕ) then 1 else 0

/-- Metric of the GNO witness. -/
def C1w_SG : Matrix (Fin 2) (Fin 2) ℚ :=
  Matrix.of fun i j => if i = j ∧ (i : ℕ) = 1 then 1 else 0

/-- Metric of the projective projector counterexample: unit-norm single and
double excitation vectors with overlap `1/2`. -/
def C2c_S : Matrix (Fin (1 + 1)) (Fin (1 + 1)) ℚ :=
  Matrix.of fun i j => if i = j then 1 else 1 / 2

/-- Inverse of the GNO connector `C1w_Y`. -/
def C2c_Yinv : Matrix (Fin 2) (Fin 2) ℚ :=
  Matrix.of fun i j => if i = j then 1 else if (i : ℕ) < (j : ℕ) then -1 else 0

/-- Metric of the GNO projector counterexample. -/
def C2c_SG : Matrix (Fin 2) (Fin 2) ℚ :=
  Matrix.of fun i j => if i = j ∧ (i : ℕ) = 1 then 2 else 0

/-- Metric of the C9 counterexample: two single excitations, one of which is
the zero vector (rank-deficient rank-1 block), and no doubles. -/
def C9c_S : Matrix (Fin (2 + 0)) (Fin (2 + 0)) ℚ :=
  Matrix.of fun i j => if i = j ∧ (i : ℕ) = 0 then 1 else 0

section ColumnSelectionDefs

variable {α : Type} [LinearOrderedField α]

open Matrix

/-- Column-selection matrix of a retained-index list: column `j` is the
standard basis vector at `kept[j]`. `U @ Kmat kept` is numpy's
`U[:, kept]`. -/
def Kmat {p : ℕ} (kept : List (Fin p)) : Matrix (Fin p) (Fin kept.length) α :=
  Matrix.of fun k j => if k = kept.get j then 1 else 0

end ColumnSelectionDefs

section ProjBound2Defs

variable {α : Type} [LinearOrderedField α]

open Matrix

/-- Candidate non-redundant directions of the projective variant: the `n1`
padded single-excitation positions followed by the retained eigenvectors of
`S2`; `numnonred = n1 + numnonred2` counts its columns. -/
def projBasisMat (n1 n2 : ℕ) (U2 : Matrix (Fin (n1 + n2)) (Fin (n1 + n2)) α)
    (kl2 : List (Fin (n1 + n2))) :
    Matrix (Fin (n1 + n2)) (Fin (n1 + kl2.length)) α :=
  Matrix.of fun i c =>
    if h : (c : ℕ) < n1 then embedMat n1 n2 i ⟨(c : ℕ), h⟩
    else ((U2 * Kmat kl2 : Matrix (Fin (n1 + n2)) (Fin kl2.length) α)) i
      ⟨(c : ℕ) - n1, by
        have hc := c.isLt
        omega⟩

end ProjBound2Defs

section TrustRegionDefs

variable {α : Type} [LinearOrderedField α]

open Matrix

/-- The residual in the orthonormal basis, `R1 = X.T @ residual`
(source line 100). -/
def update_R1 {n : ℕ} (X : Matrix (Fin n) (Fin n) α) (residual : Fin n → α) :
    Fin n → α :=
  Xᵀ.mulVec residual

/-- The preconditioned matrix `M = (X.T @ S) * (denominators[j] + eta) @ X`
(source lines 104-110). -/
def update_M {n : ℕ} (X S : Matrix (Fin n) (Fin n) α)
    (denominators : Fin n → α) (eta : α) : Matrix (Fin n) (Fin n) α :=
  (Matrix.of fun i j => (Xᵀ * S) i j * (denominators j + eta)) * X

/-- The truncated right-hand side `kn = -R1[:numnonred]` (source line 113). -/
def update_kn {n nn : ℕ} (h : nn ≤ n) (R1 : Fin n → α) : Fin nn → α :=
  fun i => -R1 (Fin.castLE h i)

/-- The truncated system matrix `Mn = M[:numnonred,:numnonred]`
(source line 115). -/
def update_Mn {n nn : ℕ} (h : nn ≤ n) (M : Matrix (Fin n) (Fin n) α) :
    Matrix (Fin nn) (Fin nn) α :=
  Matrix.of fun i j => M (Fin.castLE h i) (Fin.castLE h j)

/-- The applied step `dK` (source lines 119-129): the solver output
`dK_short`, rescaled to the trust radius when its Euclidean norm `nrm`
(the `np.linalg.norm` oracle) exceeds `update_radius`, written into the
first `numnonred` components; all later components stay zero. -/
def dK_applied {n nn : ℕ} (h : nn ≤ n) (dK_short : Fin nn → α)
    (nrm radius : α) : Fin n → α :=
  fun x =>
    if hx : (x : ℕ) < nn then
      (if radius < nrm then radius * dK_short ⟨(x : ℕ), hx⟩ / nrm
       else dK_short ⟨(x : ℕ), hx⟩)
    else 0

end TrustRegionDefs

section HbarBuildersDefs

variable {α : Type} [LinearOrderedField α]

open Matrix

/-- In-place assignment `M[p, q] = v` of the numpy array updates. -/
def writeEntry {n : ℕ} (M : Matrix (Fin n) (Fin n) α) (p q : Fin n) (v : α) :
    Matrix (Fin n) (Fin n) α :=
  Matrix.of fun a b => if a = p ∧ b = q then v else M a b

/-- The naive effective Hamiltonian (source lines 1327-1336):
`Hbar_ic[i, j] = overlap(basis_j, e^(-A) H e^(A) basis_i)` with the
`exp_op`/`ham_op`/`overlap` backend calls as oracles; no entry is
mirrored. -/
def get_hbar_naive {V : Type} {n : ℕ} (basis : Fin n → V)
    (expP ham expM : V → V) (ovl : V → V → α) : Matrix (Fin n) (Fin n) α :=
  Matrix.of fun i j => ovl (basis j) (expM (ham (expP (basis i))))

/-- The operator-product-reuse effective Hamiltonian (source lines
1338-1353): `wfn_i = e^(A) basis_i` and `Hwfn_j = H wfn_j` are cached, then
the double loop writes `Hbar_ic[i, j] = overlap(wfn_i, Hwfn_j)` and mirrors
it to `Hbar_ic[j, i]`. -/
def get_hbar_oprod {V : Type} {n : ℕ} (basis : Fin n → V) (expP ham : V → V)
    (ovl : V → V → α) : Matrix (Fin n) (Fin n) α :=
  List.foldl
    (fun M p =>
      writeEntry
        (writeEntry M p.1 p.2 (ovl (expP (basis p.1)) (ham (expP (basis p.2)))))
        p.2 p.1 (ovl (expP (basis p.1)) (ham (expP (basis p.2)))))
    0 ((List.finRange n).flatMap fun i => (List.finRange n).map fun j => (i, j))

/-- Repeated application of the excitation operator: `wfn_list[k]` of the
commutator chain (source lines 1283-1291). -/
def wchain {V : Type} (applyA : V → V) (ψ : V) : ℕ → V
  | 0 => ψ
  | k + 1 => applyA (wchain applyA ψ k)

/-- One matrix element of the commutator-recursive builder (source lines
1298-1304): the factorial-weighted BCH double sum over chain lengths. -/
def comm_energy {V : Type} (applyA ham : V → V) (ovl : V → V → α)
    (ncomm : ℕ) (ψi ψj : V) : α :=
  ∑ k in Finset.range (ncomm + 1), ∑ l in Finset.range (k + 1),
    ovl (wchain applyA ψj l) (ham (wchain applyA ψi (k - l)))
      / ((Nat.factorial l * Nat.factorial (k - l) : ℕ) : α)

/-- The commutator-recursive effective Hamiltonian (source lines 1277-1306):
for every `jbasis ≤ ibasis` the energy is written to `Hbar_ic[jbasis, ibasis]`
and to `Hbar_ic[ibasis, jbasis]`. -/
def get_hbar_commutator {V : Type} {n : ℕ} (basis : Fin n → V)
    (applyA ham : V → V) (ovl : V → V → α) (ncomm : ℕ) :
    Matrix (Fin n) (Fin n) α :=
  List.foldl
    (fun M p =>
      writeEntry
        (writeEntry M p.2 p.1
          (comm_energy applyA ham ovl ncomm (basis p.1) (basis p.2)))
        p.1 p.2 (comm_energy applyA ham ovl ncomm (basis p.1) (basis p.2)))
    0 ((List.finRange n).flatMap fun i =>
        ((List.finRange n).filter fun (j : Fin n) => decide ((j : ℕ) ≤ (i : ℕ))).map
          fun j => ((i, j) : Fin n × Fin n))

end HbarBuildersDefs

lemma foldl_xor_init (l : List ℕ) (a : ℕ) :
    l.foldl (· ^^^ ·) a = a ^^^ foldXor l := by
  induction l generalizing a with
  | nil => simp [foldXor]
  | cons x xs ih =>
    simp only [List.foldl_cons, foldXor]
    rw [ih (a ^^^ x), ih (0 ^^^ x), Nat.zero_xor, Nat.xor_assoc]

lemma foldXor_cons (x : ℕ) (l : List ℕ) : foldXor (x :: l) = x ^^^ foldXor l := by
  simp only [foldXor, List.foldl_cons, Nat.zero_xor]
  exact foldl_xor_init l x

lemma foldXor_append (l₁ l₂ : List ℕ) :
    foldXor (l₁ ++ l₂) = foldXor l₁ ^^^ foldXor l₂ := by
  induction l₁ with
  | nil => simp [foldXor, Nat.zero_xor]
  | cons x xs ih =>
    simp only [List.cons_append, foldXor_cons, ih, Nat.xor_assoc]

lemma foldXor_reverse (l : List ℕ) : foldXor l.reverse = foldXor l := by
  induction l with
  | nil => rfl
  | cons x xs ih =>
    rw [List.reverse_cons, foldXor_append, ih]
    have hx : foldXor [x] = x := by simp [foldXor, Nat.zero_xor]
    rw [hx, foldXor_cons, Nat.xor_comm]

lemma sym_dir_prod_eq_foldXor (l s : List ℕ) :
    sym_dir_prod l s = foldXor (l.map fun y => s.getD y 0) := by
  match l with
  | [] => rfl
  | [x] => simp [sym_dir_prod, foldXor, Nat.zero_xor]
  | x :: y :: xs =>
    simp only [sym_dir_prod, List.map_cons, foldXor, List.foldl_cons, Nat.zero_xor]

lemma natXor_left_comm (a b c : ℕ) : a ^^^ (b ^^^ c) = b ^^^ (a ^^^ c) := by
  rw [← Nat.xor_assoc, Nat.xor_comm a b, Nat.xor_assoc]

lemma legSym_append (s : List ℕ) (x y : List OpLeg) :
    legSym s (x ++ y) = legSym s x ^^^ legSym s y := by
  simp only [legSym, List.map_append, foldXor_append]

lemma legSym_reverse (s : List ℕ) (x : List OpLeg) :
    legSym s x.reverse = legSym s x := by
  simp only [legSym, List.map_reverse, foldXor_reverse]

lemma legSym_legList (all_sym ao bo bv av : List ℕ) :
    legSym all_sym (legList ao bo bv av)
      = sym_dir_prod ao all_sym ^^^ sym_dir_prod av all_sym
        ^^^ sym_dir_prod bo all_sym ^^^ sym_dir_prod bv all_sym := by
  simp only [legSym, legList, List.map_append, List.map_map, foldXor_append,
    ← List.map_reverse, foldXor_reverse, sym_dir_prod_eq_foldXor, Function.comp_def]
  simp [foldXor_reverse, Nat.xor_assoc, Nat.xor_comm, natXor_left_comm]

lemma gnoAdjust_legSym (act : List ℕ) (n : ℕ) (l l' : List OpLeg)
    (h : gnoAdjust act n l = some l') (s : List ℕ) : legSym s l' = legSym s l := by
  unfold gnoAdjust at h
  split at h
  · by_cases h1 : countAct act (l.take 2) = 1 <;>
      by_cases h2 : countAct act (l.drop 2) = 1 <;>
      by_cases h3 : act.contains (((l.take 2).getD 0 (false, false, 0)).2.2) = true <;>
      by_cases h4 : act.contains (((l.drop 2).getD 1 (false, false, 0)).2.2) = true <;>
      simp only [h1, h2, h3, h4, if_true, if_false, Option.bind, Option.map,
        reduceCtorEq, if_pos, if_neg, Bool.not_eq_true, Option.some.injEq] at h
    all_goals
      subst h
      conv_rhs => rw [← List.take_append_drop 2 l]
      try simp only [legSym_append, legSym_reverse]
  · simp only [Option.some.injEq] at h
    subst h
    rfl

/-- C5: every operator emitted by the manifold generator satisfies the
symmetry filter: the XOR-reduction of the per-orbital symmetry labels over
all of its legs equals the configured target irrep `sym`.  Proved for every
configuration (any orbital spaces, either value of `add_int`, with or without
the GNO reordering). -/
theorem C5_manifold_symmetry_filter (hole particle act all_sym : List ℕ)
    (sym max_exc : ℕ) (add_int gno : Bool) (l : List OpLeg)
    (hl : l ∈ initialize_op_ops hole particle act all_sym sym max_exc add_int gno) :
    legSym all_sym l = sym := by
  rw [initialize_op_ops, List.mem_filterMap] at hl
  obtain ⟨c, -, hc⟩ := hl
  obtain ⟨n, ao, av, bo, bv⟩ := c
  simp only [emitOne] at hc
  by_cases hguard : sym_dir_prod ao all_sym ^^^ sym_dir_prod av all_sym
      ^^^ sym_dir_prod bo all_sym ^^^ sym_dir_prod bv all_sym = sym
  · rw [if_pos hguard] at hc
    by_cases hact : (!((legList ao bo bv av).all fun item => act.contains item.2.2)
        || add_int) = true
    · rw [if_pos hact] at hc
      by_cases hgno : gno = true
      · rw [if_pos hgno] at hc
        rw [gnoAdjust_legSym act n _ l hc, legSym_legList]
        exact hguard
      · rw [if_neg hgno, Option.some.injEq] at hc
        subst hc
        rw [legSym_legList]
        exact hguard
    · rw [if_neg hact] at hc
      exact absurd hc (by simp)
  · rw [if_neg hguard] at hc
    exact absurd hc (by simp)

/-- Concrete instantiation of C5: a two-orbital system with symmetry labels
0 and 1, target irrep 1, rank 1; the alpha single excitation from orbital 0
to orbital 1 is emitted and its leg-symmetry XOR equals the target. -/
theorem C5_witness :
    [((false : Bool), (true : Bool), (0 : ℕ)), (true, true, 1)]
        ∈ initialize_op_ops [0] [1] [] [0, 1] 1 1 false false
      ∧ legSym [0, 1] [((false : Bool), (true : Bool), (0 : ℕ)), (true, true, 1)] = 1 :=
  ⟨by decide, C5_manifold_symmetry_filter [0] [1] [] [0, 1] 1 1 false false _ (by decide)⟩

/-- C6: for a configuration whose enumeration passes no symmetry filter (one
hole orbital and one particle orbital, both of irrep 0, target irrep 1,
ranks up to 2), the manifold generator emits zero operators.  The solver
(`run_ic_mrcc`, lines 857-899) contains no check on this count and proceeds
into the iteration loop with only the reference in the basis. -/
theorem C6_empty_manifold : initialize_op_ops [0] [1] [] [0, 0] 1 2 false false = [] := by
  decide

/-! ### Section 2: the DIIS accelerator (`class DIIS`, lines 1355-1409). -/

/-- C4: with `diis_start = -1`, `DIIS.update` returns the input amplitudes
unchanged and does not modify the stored history, for every input pair and
every state of the history. -/
theorem C4_diis_disabled_noop (α : Type) [LinearOrderedField α] (d : DIIS α)
    (solve : (ℕ → ℕ → α) → (ℕ → α) → (ℕ → α)) (t t_old : List α)
    (h : d.diis_start = -1) : d.update solve t t_old = (d, t) := by
  rw [DIIS.update, if_pos h]

/-- Concrete instantiation of C4 on a disabled DIIS object with nonempty
history. -/
theorem C4_witness :
    (DIIS.mk [[(1 : ℚ), 2]] [] (-1)).diis_start = -1
      ∧ (DIIS.mk [[(1 : ℚ), 2]] [] (-1)).update (fun _ _ _ => 0) [3, 4] [1, 2]
        = (DIIS.mk [[(1 : ℚ), 2]] [] (-1), [3, 4]) :=
  ⟨rfl, C4_diis_disabled_noop ℚ _ _ [3, 4] [1, 2] rfl⟩

/-- C10: when DIIS is enabled (`diis_start ≠ -1`) and the history dimension
after appending reaches the amplitude dimension `len(t)`, `update` still
appends the new amplitudes and the error vector `t - t_old` to the history
but returns the input `t` without extrapolation. -/
theorem C10_diis_history_saturated (α : Type) [LinearOrderedField α]
    (d : DIIS α) (solve : (ℕ → ℕ → α) → (ℕ → α) → (ℕ → α)) (t t_old : List α)
    (h1 : d.diis_start ≠ -1) (h2 : t.length ≤ d.t_diis.length) :
    d.update solve t t_old
      = (⟨d.t_diis ++ [t], d.e_diis ++ [t.zipWith (· - ·) t_old], d.diis_start⟩, t) := by
  rw [DIIS.update, if_neg h1, if_neg]
  rintro ⟨-, hlt⟩
  rw [List.length_append, List.length_cons, List.length_nil] at hlt
  omega

/-- Concrete instantiation of C10: amplitude dimension 1, history already of
length 2; the update appends and returns the input. -/
theorem C10_witness :
    (DIIS.mk [[(0 : ℚ)], [1]] [[0]] 3).diis_start ≠ -1
      ∧ [(5 : ℚ)].length ≤ (DIIS.mk [[(0 : ℚ)], [1]] [[0]] 3).t_diis.length
      ∧ (DIIS.mk [[(0 : ℚ)], [1]] [[0]] 3).update (fun _ _ _ => 0) [5] [2]
        = (DIIS.mk [[(0 : ℚ)], [1], [5]] [[0], [3]] 3, [5]) :=
  ⟨by decide, by decide, by
    have h := C10_diis_history_saturated ℚ (DIIS.mk [[(0 : ℚ)], [1]] [[0]] 3)
      (fun _ _ _ => 0) [5] [2] (by decide) (by decide)
    norm_num at h
    exact h⟩

/-! ### Section 3: the orthogonalization engine (`orthogonalization`,
`orthogonalization_projective`, `orthogonalization_GNO`, lines 147-271).
The metric `S` (assembled from the backend `forte.overlap` calls) and the
`np.linalg.eigh` output `(eigval, eigvec)` are oracle parameters; theorems
constrain them by the eigendecomposition contract. -/

section Orthogonalization

variable {α : Type} [LinearOrderedField α]

open Matrix

lemma keptList_nodup {n : ℕ} (eigval : Fin n → α) (thres : α) :
    (keptList eigval thres).Nodup :=
  (List.nodup_finRange n).filter _

lemma keptListConst_nodup (n num_op : ℕ) : (keptListConst n num_op).Nodup :=
  (List.drop_sublist _ _).nodup (List.nodup_finRange n)

lemma keptOf_nodup {n : ℕ} (const_num_op : Bool) (num_op : ℕ)
    (eigval : Fin n → α) (thres : α) :
    (keptOf const_num_op num_op eigval thres).Nodup := by
  unfold keptOf
  split
  · exact keptListConst_nodup n num_op
  · exact keptList_nodup eigval thres

lemma keptList_length_le {n : ℕ} (eigval : Fin n → α) (thres : α) :
    (keptList eigval thres).length ≤ n := by
  simpa using (List.length_filter_le _ (List.finRange n))

lemma keptListConst_length (n num_op : ℕ) :
    (keptListConst n num_op).length = n - (n - num_op) := by
  simp [keptListConst]

lemma mem_keptList {n : ℕ} {eigval : Fin n → α} {thres : α} {k : Fin n} :
    k ∈ keptList eigval thres ↔ thres < eigval k := by
  simp [keptList]

lemma buildX_eq_mul_selMat {n : ℕ} (U : Matrix (Fin n) (Fin n) α)
    (sq : Fin n → α) (kept : List (Fin n)) :
    buildX U sq kept = U * selMat sq kept := by
  ext i c
  rw [Matrix.mul_apply]
  by_cases h : (c : ℕ) < kept.length
  · simp only [buildX, selMat, Matrix.of_apply, dif_pos h, mul_ite, mul_zero]
    rw [Finset.sum_ite_eq' Finset.univ (kept.get ⟨c, h⟩) fun k => U i k * (sq k)⁻¹]
    simp [div_eq_mul_inv]
  · simp [buildX, selMat, dif_neg h]

lemma eigh_sandwich {n : ℕ} (S U : Matrix (Fin n) (Fin n) α) (Λ : Fin n → α)
    (hS : S = U * Matrix.diagonal Λ * Uᵀ) (hU : Uᵀ * U = 1) :
    Uᵀ * S * U = Matrix.diagonal Λ := by
  subst hS
  calc Uᵀ * (U * Matrix.diagonal Λ * Uᵀ) * U
      = (Uᵀ * U) * Matrix.diagonal Λ * (Uᵀ * U) := by
        simp only [Matrix.mul_assoc]
    _ = Matrix.diagonal Λ := by rw [hU, Matrix.one_mul, Matrix.mul_one]

/-- Core orthogonality computation shared by the three variants: if the
eigendecomposition contract holds for `A` relative to `(U, Λ)` and `sq` is a
nonzero square root of `Λ` on the retained indices, then `Xᵀ A X` is the
diagonal matrix which is 1 on the first `kept.length` positions and 0
after. -/
lemma buildX_sandwich {n : ℕ} (A U : Matrix (Fin n) (Fin n) α)
    (Λ sq : Fin n → α) (kept : List (Fin n))
    (hA : Uᵀ * A * U = Matrix.diagonal Λ) (hnd : kept.Nodup)
    (hsq : ∀ k ∈ kept, sq k * sq k = Λ k ∧ sq k ≠ 0) :
    (buildX U sq kept)ᵀ * A * buildX U sq kept
      = Matrix.diagonal (fun c : Fin n => if (c : ℕ) < kept.length then 1 else 0) := by
  rw [buildX_eq_mul_selMat, Matrix.transpose_mul]
  have hassoc : (selMat sq kept)ᵀ * Uᵀ * A * (U * selMat sq kept)
      = (selMat sq kept)ᵀ * (Uᵀ * A * U) * selMat sq kept := by
    simp only [Matrix.mul_assoc]
  rw [hassoc, hA]
  ext p q
  rw [Matrix.mul_apply]
  have hentry : ∀ k, ((selMat sq kept)ᵀ * Matrix.diagonal Λ) p k
      = selMat sq kept k p * Λ k := by
    intro k
    rw [Matrix.mul_diagonal, Matrix.transpose_apply]
  simp only [hentry]
  by_cases hp : (p : ℕ) < kept.length
  · by_cases hq : (q : ℕ) < kept.length
    · by_cases hpq : p = q
      · subst hpq
        rw [Finset.sum_eq_single (kept.get ⟨p, hp⟩)]
        · simp only [selMat, Matrix.of_apply, dif_pos hp, if_pos rfl]
          obtain ⟨hsq1, hsq2⟩ := hsq _ (kept.get_mem _ _)
          rw [Matrix.diagonal_apply_eq, if_pos hp, ← hsq1]
          field_simp
          exact div_self hsq2
        · intro k _ hk
          simp only [selMat, Matrix.of_apply, dif_pos hp, if_neg hk, zero_mul]
        · intro hk
          exact absurd (Finset.mem_univ _) hk
      · rw [Matrix.diagonal_apply_ne _ hpq]
        apply Finset.sum_eq_zero
        intro k _
        simp only [selMat, Matrix.of_apply, dif_pos hp, dif_pos hq]
        by_cases hk : k = kept.get ⟨p, hp⟩
        · have hne : k ≠ kept.get ⟨q, hq⟩ := by
            rw [hk]
            intro hcon
            rw [hnd.get_inj_iff] at hcon
            exact hpq (Fin.ext (by simpa using congrArg Fin.val hcon))
          rw [if_neg hne, mul_zero]
        · rw [if_neg hk, zero_mul, zero_mul]
    · have hpq : p ≠ q := fun hcon => hq (hcon ▸ hp)
      rw [Matrix.diagonal_apply_ne _ hpq]
      apply Finset.sum_eq_zero
      intro k _
      simp only [selMat, Matrix.of_apply, dif_neg hq, mul_zero]
  · have hzero : ∀ k ∈ Finset.univ, selMat sq kept k p * Λ k * selMat sq kept k q = 0 := by
      intro k _
      simp only [selMat, Matrix.of_apply, dif_neg hp, zero_mul]
    rw [Finset.sum_eq_zero hzero]
    by_cases hpq : p = q
    · subst hpq
      rw [Matrix.diagonal_apply_eq, if_neg hp]
    · rw [Matrix.diagonal_apply_ne _ hpq]

lemma buildP_transpose {n m : ℕ} (U : Matrix (Fin n) (Fin m) α)
    (kept : List (Fin m)) : (buildP U kept)ᵀ = buildP U kept := by
  ext i j
  simp only [buildP, Matrix.transpose_apply, Matrix.of_apply]
  congr 1
  exact List.map_congr_left fun k _ => mul_comm _ _

lemma buildP_eq {n m : ℕ} (U : Matrix (Fin n) (Fin m) α) (kept : List (Fin m))
    (hnd : kept.Nodup) :
    buildP U kept
      = U * Matrix.diagonal (fun k => if k ∈ kept then (1 : α) else 0) * Uᵀ := by
  ext i j
  rw [Matrix.mul_apply]
  have hentry : ∀ k, (U * Matrix.diagonal fun k => if k ∈ kept then (1 : α) else 0) i k
      = U i k * (if k ∈ kept then (1 : α) else 0) := by
    intro k
    rw [Matrix.mul_diagonal]
  simp only [hentry, Matrix.transpose_apply]
  have hsummand : ∀ k, U i k * (if k ∈ kept then (1 : α) else 0) * U j k
      = if k ∈ kept then U i k * U j k else 0 := by
    intro k
    by_cases hk : k ∈ kept <;> simp [hk]
  simp only [hsummand]
  rw [← Finset.sum_filter]
  have hfs : Finset.univ.filter (fun k => k ∈ kept) = kept.toFinset := by
    ext k
    simp
  rw [hfs, List.sum_toFinset _ hnd]
  rfl

lemma diagonal_ind_sq {m : ℕ} (p : Fin m → Prop) [DecidablePred p] :
    Matrix.diagonal (fun k => if p k then (1 : α) else 0)
        * Matrix.diagonal (fun k => if p k then (1 : α) else 0)
      = Matrix.diagonal (fun k => if p k then (1 : α) else 0) := by
  ext i j
  by_cases hij : i = j
  · subst hij
    rw [Matrix.diagonal_mul_diagonal, Matrix.diagonal_apply_eq, Matrix.diagonal_apply_eq]
    by_cases hk : p i <;> simp [hk]
  · rw [Matrix.diagonal_mul_diagonal, Matrix.diagonal_apply_ne _ hij,
      Matrix.diagonal_apply_ne _ hij]

lemma buildP_idempotent {n m : ℕ} (U : Matrix (Fin n) (Fin m) α)
    (kept : List (Fin m)) (hU : Uᵀ * U = 1) (hnd : kept.Nodup) :
    buildP U kept * buildP U kept = buildP U kept := by
  rw [buildP_eq U kept hnd]
  have h1 : Uᵀ * (U * (Matrix.diagonal (fun k => if k ∈ kept then (1 : α) else 0) * Uᵀ))
      = Matrix.diagonal (fun k => if k ∈ kept then (1 : α) else 0) * Uᵀ := by
    rw [← Matrix.mul_assoc, hU, Matrix.one_mul]
  calc U * Matrix.diagonal (fun k => if k ∈ kept then (1 : α) else 0) * Uᵀ
        * (U * Matrix.diagonal (fun k => if k ∈ kept then (1 : α) else 0) * Uᵀ)
      = U * (Matrix.diagonal (fun k => if k ∈ kept then (1 : α) else 0)
          * (Uᵀ * (U * (Matrix.diagonal (fun k => if k ∈ kept then (1 : α) else 0) * Uᵀ)))) := by
        simp only [Matrix.mul_assoc]
    _ = U * (Matrix.diagonal (fun k => if k ∈ kept then (1 : α) else 0)
          * (Matrix.diagonal (fun k => if k ∈ kept then (1 : α) else 0) * Uᵀ)) := by rw [h1]
    _ = U * ((Matrix.diagonal (fun k => if k ∈ kept then (1 : α) else 0)
          * Matrix.diagonal (fun k => if k ∈ kept then (1 : α) else 0)) * Uᵀ) := by
        simp only [Matrix.mul_assoc]
    _ = U * Matrix.diagonal (fun k => if k ∈ kept then (1 : α) else 0) * Uᵀ := by
        rw [diagonal_ind_sq]
        simp only [Matrix.mul_assoc]

end Orthogonalization

section OrthoVariants

variable {α : Type} [LinearOrderedField α]

open Matrix

end OrthoVariants

section ProjLemmas

variable {α : Type} [LinearOrderedField α]

open Matrix

lemma sandwich_entry {N M1 M2 : ℕ} (A : Matrix (Fin N) (Fin M1) α)
    (S : Matrix (Fin N) (Fin N) α) (B : Matrix (Fin N) (Fin M2) α)
    (p : Fin M1) (q : Fin M2) :
    (Aᵀ * S * B) p q = ∑ i, ∑ j, A i p * S i j * B j q := by
  rw [Matrix.mul_apply]
  simp_rw [Matrix.mul_apply, Matrix.transpose_apply, Finset.sum_mul]
  rw [Finset.sum_comm]

lemma embedT_mul {n1 n2 N : ℕ} (M : Matrix (Fin (n1 + n2)) (Fin N) α)
    (a : Fin n1) (q : Fin N) :
    (((embedMat (α := α) n1 n2)ᵀ * M : Matrix (Fin n1) (Fin N) α)) a q
      = M (Fin.castAdd n2 a) q := by
  rw [Matrix.mul_apply, Finset.sum_eq_single (Fin.castAdd n2 a)]
  · simp [embedMat, Matrix.transpose_apply, Fin.coe_castAdd]
  · intro j _ hj
    have hval : (j : ℕ) ≠ (a : ℕ) := by
      intro hcon
      exact hj (Fin.ext (by simp [Fin.coe_castAdd, hcon]))
    simp [embedMat, Matrix.transpose_apply, hval]
  · intro h
    exact absurd (Finset.mem_univ _) h

lemma mul_embed {n1 n2 N : ℕ} (M : Matrix (Fin N) (Fin (n1 + n2)) α)
    (p : Fin N) (a : Fin n1) :
    ((M * embedMat (α := α) n1 n2 : Matrix (Fin N) (Fin n1) α)) p a
      = M p (Fin.castAdd n2 a) := by
  rw [Matrix.mul_apply, Finset.sum_eq_single (Fin.castAdd n2 a)]
  · simp [embedMat, Fin.coe_castAdd]
  · intro j _ hj
    have hval : (j : ℕ) ≠ (a : ℕ) := by
      intro hcon
      exact hj (Fin.ext (by simp [Fin.coe_castAdd, hcon]))
    simp [embedMat, hval]
  · intro h
    exact absurd (Finset.mem_univ _) h

lemma embed_sandwich {n1 n2 : ℕ} (S : Matrix (Fin (n1 + n2)) (Fin (n1 + n2)) α) :
    (embedMat (α := α) n1 n2)ᵀ * S * embedMat n1 n2 = S1block S := by
  ext a b
  rw [mul_embed ((embedMat n1 n2)ᵀ * S) a b, embedT_mul S a (Fin.castAdd n2 b)]
  rfl

lemma embed_orthonormal (n1 n2 : ℕ) :
    (embedMat (α := α) n1 n2)ᵀ * embedMat (α := α) n1 n2
      = (1 : Matrix (Fin n1) (Fin n1) α) := by
  ext a b
  rw [mul_embed ((embedMat n1 n2)ᵀ) a b, Matrix.transpose_apply]
  by_cases hab : a = b
  · subst hab
    simp [embedMat, Matrix.one_apply]
  · have hval : ((Fin.castAdd n2 b : Fin (n1 + n2)) : ℕ) ≠ (a : ℕ) := by
      intro hcon
      exact hab (Fin.ext (by simpa [Fin.coe_castAdd] using hcon.symm))
    simp only [embedMat, Matrix.one_apply, Fin.coe_castAdd, Matrix.of_apply,
      if_neg hab]
    rw [if_neg]
    intro hcon
    exact hab (Fin.ext hcon.symm)

lemma mul_embedT {n1 n2 N : ℕ} (M : Matrix (Fin N) (Fin n1) α)
    (i : Fin N) (c : Fin (n1 + n2)) :
    ((M * (embedMat (α := α) n1 n2)ᵀ : Matrix (Fin N) (Fin (n1 + n2)) α)) i c
      = if h : (c : ℕ) < n1 then M i ⟨(c : ℕ), h⟩ else 0 := by
  rw [Matrix.mul_apply]
  by_cases h : (c : ℕ) < n1
  · rw [dif_pos h, Finset.sum_eq_single ⟨(c : ℕ), h⟩]
    · simp [embedMat, Matrix.transpose_apply]
    · intro a _ ha
      have hval : (c : ℕ) ≠ (a : ℕ) := by
        intro hcon
        exact ha (Fin.ext hcon.symm)
      simp [embedMat, Matrix.transpose_apply, hval]
    · intro hmem
      exact absurd (Finset.mem_univ _) hmem
  · rw [dif_neg h]
    apply Finset.sum_eq_zero
    intro a _
    have hval : (c : ℕ) ≠ (a : ℕ) := by
      intro hcon
      exact h (hcon ▸ a.isLt)
    simp [embedMat, Matrix.transpose_apply, hval]

lemma mul_shift {n1 n2 N : ℕ} (M : Matrix (Fin N) (Fin (n1 + n2)) α)
    (i : Fin N) (c : Fin (n1 + n2)) :
    ((M * shiftMat (α := α) n1 n2 : Matrix (Fin N) (Fin (n1 + n2)) α)) i c
      = if n1 ≤ (c : ℕ) then
          M i ⟨(c : ℕ) - n1, lt_of_le_of_lt (Nat.sub_le _ _) c.isLt⟩
        else 0 := by
  rw [Matrix.mul_apply]
  by_cases h : n1 ≤ (c : ℕ)
  · rw [if_pos h,
      Finset.sum_eq_single (⟨(c : ℕ) - n1, lt_of_le_of_lt (Nat.sub_le _ _) c.isLt⟩ :
        Fin (n1 + n2))]
    · simp only [shiftMat, Matrix.of_apply]
      rw [if_pos (by show (c : ℕ) = (c : ℕ) - n1 + n1; omega), mul_one]
    · intro d _ hd
      have hval : (c : ℕ) ≠ (d : ℕ) + n1 := by
        intro hcon
        apply hd
        apply Fin.ext
        show (d : ℕ) = (c : ℕ) - n1
        omega
      simp [shiftMat, hval]
    · intro hmem
      exact absurd (Finset.mem_univ _) hmem
  · rw [if_neg h]
    apply Finset.sum_eq_zero
    intro d _
    have hval : (c : ℕ) ≠ (d : ℕ) + n1 := by omega
    simp [shiftMat, hval]

lemma embed_embedT_apply {n1 n2 : ℕ} (p q : Fin (n1 + n2)) :
    ((embedMat (α := α) n1 n2 * (embedMat (α := α) n1 n2)ᵀ :
        Matrix (Fin (n1 + n2)) (Fin (n1 + n2)) α)) p q
      = if (p : ℕ) = (q : ℕ) ∧ (p : ℕ) < n1 then 1 else 0 := by
  rw [mul_embedT]
  by_cases h : (q : ℕ) < n1
  · rw [dif_pos h]
    simp only [embedMat, Matrix.of_apply]
    by_cases hpq : (p : ℕ) = (q : ℕ)
    · rw [if_pos hpq, if_pos ⟨hpq, hpq ▸ h⟩]
    · rw [if_neg hpq, if_neg (fun hcon => hpq hcon.1)]
  · rw [dif_neg h]
    rw [if_neg]
    intro hcon
    exact h (hcon.1 ▸ hcon.2)

lemma shiftT_diag_shift {n1 n2 : ℕ} (d : Fin (n1 + n2) → α) (p q : Fin (n1 + n2)) :
    (((shiftMat (α := α) n1 n2)ᵀ * Matrix.diagonal d * shiftMat n1 n2 :
        Matrix (Fin (n1 + n2)) (Fin (n1 + n2)) α)) p q
      = if (p : ℕ) = (q : ℕ) ∧ n1 ≤ (p : ℕ) then
          d ⟨(p : ℕ) - n1, lt_of_le_of_lt (Nat.sub_le _ _) p.isLt⟩
        else 0 := by
  rw [mul_shift]
  by_cases h : n1 ≤ (q : ℕ)
  · rw [if_pos h, Matrix.mul_diagonal, Matrix.transpose_apply]
    simp only [shiftMat, Matrix.of_apply]
    by_cases hpq : (p : ℕ) = (q : ℕ)
    · rw [if_pos (by show (p : ℕ) = (q : ℕ) - n1 + n1; omega),
        if_pos ⟨hpq, hpq ▸ h⟩, one_mul]
      congr 1
      apply Fin.ext
      show (q : ℕ) - n1 = (p : ℕ) - n1
      omega
    · rw [if_neg (by show ¬(p : ℕ) = (q : ℕ) - n1 + n1; omega),
        if_neg (fun hcon => hpq hcon.1), zero_mul]
  · rw [if_neg h, if_neg]
    intro hcon
    exact h (hcon.1 ▸ hcon.2)

lemma diagonal_ind_entry {n : ℕ} (len : ℕ) (p q : Fin n) (hp : (p : ℕ) < len) :
    Matrix.diagonal (fun c : Fin n => if (c : ℕ) < len then (1 : α) else 0) p q
      = if p = q then 1 else 0 := by
  by_cases hpq : p = q
  · subst hpq
    rw [Matrix.diagonal_apply_eq, if_pos hp, if_pos rfl]
  · rw [Matrix.diagonal_apply_ne _ hpq, if_neg hpq]

lemma Xproj_decomp (n1 n2 : ℕ) (S : Matrix (Fin (n1 + n2)) (Fin (n1 + n2)) α)
    (U1 : Matrix (Fin n1) (Fin n1) α) (Λ1 sq1 : Fin n1 → α)
    (U2 : Matrix (Fin (n1 + n2)) (Fin (n1 + n2)) α) (Λ2 sq2 : Fin (n1 + n2) → α)
    (thres : α) :
    orthogonalization_projective_X n1 n2 S U1 Λ1 sq1 U2 Λ2 sq2 thres
      = X1proj n1 n2 U1 Λ1 sq1 thres * (embedMat n1 n2)ᵀ
        + X2proj n1 n2 S U1 Λ1 sq1 U2 Λ2 sq2 thres * shiftMat n1 n2 := by
  ext i c
  rw [Matrix.add_apply, mul_embedT, mul_shift]
  show (if h : (c : ℕ) < n1 then X1proj n1 n2 U1 Λ1 sq1 thres i ⟨(c : ℕ), h⟩
      else X2proj n1 n2 S U1 Λ1 sq1 U2 Λ2 sq2 thres i
        ⟨(c : ℕ) - n1, lt_of_le_of_lt (Nat.sub_le _ _) c.isLt⟩) = _
  by_cases h : (c : ℕ) < n1
  · rw [dif_pos h, dif_pos h, if_neg (by omega), add_zero]
  · rw [dif_neg h, dif_neg h, if_pos (by omega), zero_add]

lemma X1_sandwich {n1 n2 : ℕ} (S : Matrix (Fin (n1 + n2)) (Fin (n1 + n2)) α)
    (U1 : Matrix (Fin n1) (Fin n1) α) (Λ1 sq1 : Fin n1 → α) (thres : α)
    (h1 : S1block S = U1 * Matrix.diagonal Λ1 * U1ᵀ) (hU1 : U1ᵀ * U1 = 1)
    (hsq1 : ∀ k ∈ keptList Λ1 thres, sq1 k * sq1 k = Λ1 k ∧ sq1 k ≠ 0) :
    (X1proj n1 n2 U1 Λ1 sq1 thres)ᵀ * S * X1proj n1 n2 U1 Λ1 sq1 thres
      = Matrix.diagonal (fun c : Fin n1 =>
          if (c : ℕ) < (keptList Λ1 thres).length then 1 else 0) := by
  have key := buildX_sandwich (S1block S) U1 Λ1 sq1 (keptList Λ1 thres)
    (eigh_sandwich (S1block S) U1 Λ1 h1 hU1) (keptList_nodup Λ1 thres) hsq1
  rw [← embed_sandwich (α := α) S] at key
  unfold X1proj
  rw [Matrix.transpose_mul]
  simp only [Matrix.mul_assoc] at key ⊢
  exact key

lemma X1_S_X1_one {n1 n2 : ℕ} (S : Matrix (Fin (n1 + n2)) (Fin (n1 + n2)) α)
    (U1 : Matrix (Fin n1) (Fin n1) α) (Λ1 sq1 : Fin n1 → α) (thres : α)
    (h1 : S1block S = U1 * Matrix.diagonal Λ1 * U1ᵀ) (hU1 : U1ᵀ * U1 = 1)
    (hsq1 : ∀ k ∈ keptList Λ1 thres, sq1 k * sq1 k = Λ1 k ∧ sq1 k ≠ 0)
    (hfull : (keptList Λ1 thres).length = n1) :
    (X1proj n1 n2 U1 Λ1 sq1 thres)ᵀ * S * X1proj n1 n2 U1 Λ1 sq1 thres = 1 := by
  rw [X1_sandwich S U1 Λ1 sq1 thres h1 hU1 hsq1]
  have hind : (fun c : Fin n1 =>
        if (c : ℕ) < (keptList Λ1 thres).length then (1 : α) else 0)
      = fun _ => 1 := by
    funext c
    rw [hfull, if_pos c.isLt]
  rw [hind, Matrix.diagonal_one]

lemma X1_S_Q_zero {n1 n2 : ℕ} (S : Matrix (Fin (n1 + n2)) (Fin (n1 + n2)) α)
    (U1 : Matrix (Fin n1) (Fin n1) α) (Λ1 sq1 : Fin n1 → α) (thres : α)
    (h1 : S1block S = U1 * Matrix.diagonal Λ1 * U1ᵀ) (hU1 : U1ᵀ * U1 = 1)
    (hsq1 : ∀ k ∈ keptList Λ1 thres, sq1 k * sq1 k = Λ1 k ∧ sq1 k ≠ 0)
    (hfull : (keptList Λ1 thres).length = n1) :
    (X1proj n1 n2 U1 Λ1 sq1 thres)ᵀ * S * Qproj n1 n2 S U1 Λ1 sq1 thres = 0 := by
  unfold Qproj
  rw [Matrix.mul_sub, Matrix.mul_one, sub_eq_zero]
  have key := X1_S_X1_one S U1 Λ1 sq1 thres h1 hU1 hsq1 hfull
  calc (X1proj n1 n2 U1 Λ1 sq1 thres)ᵀ * S
      = (1 : Matrix (Fin n1) (Fin n1) α) * ((X1proj n1 n2 U1 Λ1 sq1 thres)ᵀ * S) := by
        rw [Matrix.one_mul]
    _ = ((X1proj n1 n2 U1 Λ1 sq1 thres)ᵀ * S * X1proj n1 n2 U1 Λ1 sq1 thres)
          * ((X1proj n1 n2 U1 Λ1 sq1 thres)ᵀ * S) := by rw [key]
    _ = (X1proj n1 n2 U1 Λ1 sq1 thres)ᵀ * S
          * (X1proj n1 n2 U1 Λ1 sq1 thres * (X1proj n1 n2 U1 Λ1 sq1 thres)ᵀ * S) := by
        simp only [Matrix.mul_assoc]

lemma X2_sandwich {n1 n2 : ℕ} (S : Matrix (Fin (n1 + n2)) (Fin (n1 + n2)) α)
    (U1 : Matrix (Fin n1) (Fin n1) α) (Λ1 sq1 : Fin n1 → α)
    (U2 : Matrix (Fin (n1 + n2)) (Fin (n1 + n2)) α) (Λ2 sq2 : Fin (n1 + n2) → α)
    (thres : α)
    (h2 : S2proj n1 n2 S U1 Λ1 sq1 thres = U2 * Matrix.diagonal Λ2 * U2ᵀ)
    (hU2 : U2ᵀ * U2 = 1)
    (hsq2 : ∀ k ∈ keptList Λ2 thres, sq2 k * sq2 k = Λ2 k ∧ sq2 k ≠ 0) :
    (X2proj n1 n2 S U1 Λ1 sq1 U2 Λ2 sq2 thres)ᵀ * S
        * X2proj n1 n2 S U1 Λ1 sq1 U2 Λ2 sq2 thres
      = Matrix.diagonal (fun c : Fin (n1 + n2) =>
          if (c : ℕ) < (keptList Λ2 thres).length then 1 else 0) := by
  have key := buildX_sandwich (S2proj n1 n2 S U1 Λ1 sq1 thres) U2 Λ2 sq2
    (keptList Λ2 thres) (eigh_sandwich _ U2 Λ2 h2 hU2) (keptList_nodup Λ2 thres)
    hsq2
  unfold S2proj at key
  unfold X2proj
  rw [Matrix.transpose_mul]
  simp only [Matrix.mul_assoc] at key ⊢
  exact key

lemma X1_S_X2_zero {n1 n2 : ℕ} (S : Matrix (Fin (n1 + n2)) (Fin (n1 + n2)) α)
    (U1 : Matrix (Fin n1) (Fin n1) α) (Λ1 sq1 : Fin n1 → α)
    (U2 : Matrix (Fin (n1 + n2)) (Fin (n1 + n2)) α) (Λ2 sq2 : Fin (n1 + n2) → α)
    (thres : α)
    (h1 : S1block S = U1 * Matrix.diagonal Λ1 * U1ᵀ) (hU1 : U1ᵀ * U1 = 1)
    (hsq1 : ∀ k ∈ keptList Λ1 thres, sq1 k * sq1 k = Λ1 k ∧ sq1 k ≠ 0)
    (hfull : (keptList Λ1 thres).length = n1) :
    (X1proj n1 n2 U1 Λ1 sq1 thres)ᵀ * S
        * X2proj n1 n2 S U1 Λ1 sq1 U2 Λ2 sq2 thres = 0 := by
  have key := X1_S_Q_zero S U1 Λ1 sq1 thres h1 hU1 hsq1 hfull
  unfold X2proj
  have expand : (X1proj n1 n2 U1 Λ1 sq1 thres)ᵀ * S
        * (Qproj n1 n2 S U1 Λ1 sq1 thres * buildX U2 sq2 (keptList Λ2 thres))
      = ((X1proj n1 n2 U1 Λ1 sq1 thres)ᵀ * S * Qproj n1 n2 S U1 Λ1 sq1 thres)
          * buildX U2 sq2 (keptList Λ2 thres) := by
    simp only [Matrix.mul_assoc]
  rw [expand, key, Matrix.zero_mul]

lemma X2_S_X1_zero {n1 n2 : ℕ} (S : Matrix (Fin (n1 + n2)) (Fin (n1 + n2)) α)
    (U1 : Matrix (Fin n1) (Fin n1) α) (Λ1 sq1 : Fin n1 → α)
    (U2 : Matrix (Fin (n1 + n2)) (Fin (n1 + n2)) α) (Λ2 sq2 : Fin (n1 + n2) → α)
    (thres : α) (hS : Sᵀ = S)
    (h1 : S1block S = U1 * Matrix.diagonal Λ1 * U1ᵀ) (hU1 : U1ᵀ * U1 = 1)
    (hsq1 : ∀ k ∈ keptList Λ1 thres, sq1 k * sq1 k = Λ1 k ∧ sq1 k ≠ 0)
    (hfull : (keptList Λ1 thres).length = n1) :
    (X2proj n1 n2 S U1 Λ1 sq1 U2 Λ2 sq2 thres)ᵀ * S
        * X1proj n1 n2 U1 Λ1 sq1 thres = 0 := by
  have h0 := X1_S_X2_zero S U1 Λ1 sq1 U2 Λ2 sq2 thres h1 hU1 hsq1 hfull
  have h0t := congrArg Matrix.transpose h0
  rw [Matrix.transpose_mul, Matrix.transpose_mul, Matrix.transpose_transpose,
    Matrix.transpose_zero, hS] at h0t
  rw [← Matrix.mul_assoc] at h0t
  exact h0t

lemma proj_M_eq {n1 n2 : ℕ} (S : Matrix (Fin (n1 + n2)) (Fin (n1 + n2)) α)
    (U1 : Matrix (Fin n1) (Fin n1) α) (Λ1 sq1 : Fin n1 → α)
    (U2 : Matrix (Fin (n1 + n2)) (Fin (n1 + n2)) α) (Λ2 sq2 : Fin (n1 + n2) → α)
    (thres : α) (hS : Sᵀ = S)
    (h1 : S1block S = U1 * Matrix.diagonal Λ1 * U1ᵀ) (hU1 : U1ᵀ * U1 = 1)
    (hsq1 : ∀ k ∈ keptList Λ1 thres, sq1 k * sq1 k = Λ1 k ∧ sq1 k ≠ 0)
    (h2 : S2proj n1 n2 S U1 Λ1 sq1 thres = U2 * Matrix.diagonal Λ2 * U2ᵀ)
    (hU2 : U2ᵀ * U2 = 1)
    (hsq2 : ∀ k ∈ keptList Λ2 thres, sq2 k * sq2 k = Λ2 k ∧ sq2 k ≠ 0)
    (hfull : (keptList Λ1 thres).length = n1) :
    (orthogonalization_projective_X n1 n2 S U1 Λ1 sq1 U2 Λ2 sq2 thres)ᵀ * S
        * orthogonalization_projective_X n1 n2 S U1 Λ1 sq1 U2 Λ2 sq2 thres
      = embedMat n1 n2 * (embedMat n1 n2)ᵀ
        + (shiftMat n1 n2)ᵀ
            * Matrix.diagonal (fun c : Fin (n1 + n2) =>
                if (c : ℕ) < (keptList Λ2 thres).length then (1 : α) else 0)
            * shiftMat n1 n2 := by
  have hT11 : (X1proj n1 n2 U1 Λ1 sq1 thres * (embedMat n1 n2)ᵀ)ᵀ * S
        * (X1proj n1 n2 U1 Λ1 sq1 thres * (embedMat n1 n2)ᵀ)
      = embedMat n1 n2 * (embedMat n1 n2)ᵀ := by
    have base : embedMat (α := α) n1 n2
          * (((X1proj n1 n2 U1 Λ1 sq1 thres)ᵀ * S * X1proj n1 n2 U1 Λ1 sq1 thres)
            * (embedMat n1 n2)ᵀ)
        = embedMat n1 n2 * (embedMat n1 n2)ᵀ := by
      rw [X1_S_X1_one S U1 Λ1 sq1 thres h1 hU1 hsq1 hfull, Matrix.one_mul]
    rw [Matrix.transpose_mul, Matrix.transpose_transpose]
    simp only [Matrix.mul_assoc] at base ⊢
    exact base
  have hT12 : (X1proj n1 n2 U1 Λ1 sq1 thres * (embedMat n1 n2)ᵀ)ᵀ * S
        * (X2proj n1 n2 S U1 Λ1 sq1 U2 Λ2 sq2 thres * shiftMat n1 n2) = 0 := by
    have base : embedMat (α := α) n1 n2
          * (((X1proj n1 n2 U1 Λ1 sq1 thres)ᵀ * S
              * X2proj n1 n2 S U1 Λ1 sq1 U2 Λ2 sq2 thres) * shiftMat n1 n2)
        = (0 : Matrix (Fin (n1 + n2)) (Fin (n1 + n2)) α) := by
      rw [X1_S_X2_zero S U1 Λ1 sq1 U2 Λ2 sq2 thres h1 hU1 hsq1 hfull]
      simp
    rw [Matrix.transpose_mul, Matrix.transpose_transpose]
    simp only [Matrix.mul_assoc] at base ⊢
    exact base
  have hT21 : (X2proj n1 n2 S U1 Λ1 sq1 U2 Λ2 sq2 thres * shiftMat n1 n2)ᵀ * S
        * (X1proj n1 n2 U1 Λ1 sq1 thres * (embedMat n1 n2)ᵀ) = 0 := by
    have base : (shiftMat (α := α) n1 n2)ᵀ
          * (((X2proj n1 n2 S U1 Λ1 sq1 U2 Λ2 sq2 thres)ᵀ * S
              * X1proj n1 n2 U1 Λ1 sq1 thres) * (embedMat n1 n2)ᵀ)
        = (0 : Matrix (Fin (n1 + n2)) (Fin (n1 + n2)) α) := by
      rw [X2_S_X1_zero S U1 Λ1 sq1 U2 Λ2 sq2 thres hS h1 hU1 hsq1 hfull]
      simp
    rw [Matrix.transpose_mul]
    simp only [Matrix.mul_assoc] at base ⊢
    exact base
  have hT22 : (X2proj n1 n2 S U1 Λ1 sq1 U2 Λ2 sq2 thres * shiftMat n1 n2)ᵀ * S
        * (X2proj n1 n2 S U1 Λ1 sq1 U2 Λ2 sq2 thres * shiftMat n1 n2)
      = (shiftMat n1 n2)ᵀ
          * Matrix.diagonal (fun c : Fin (n1 + n2) =>
              if (c : ℕ) < (keptList Λ2 thres).length then (1 : α) else 0)
          * shiftMat n1 n2 := by
    have base : (shiftMat (α := α) n1 n2)ᵀ
          * (((X2proj n1 n2 S U1 Λ1 sq1 U2 Λ2 sq2 thres)ᵀ * S
              * X2proj n1 n2 S U1 Λ1 sq1 U2 Λ2 sq2 thres) * shiftMat n1 n2)
        = (shiftMat n1 n2)ᵀ
            * (Matrix.diagonal (fun c : Fin (n1 + n2) =>
                if (c : ℕ) < (keptList Λ2 thres).length then (1 : α) else 0)
              * shiftMat n1 n2) := by
      rw [X2_sandwich S U1 Λ1 sq1 U2 Λ2 sq2 thres h2 hU2 hsq2]
    rw [Matrix.transpose_mul]
    simp only [Matrix.mul_assoc] at base ⊢
    exact base
  rw [Xproj_decomp]
  simp only [Matrix.transpose_add, Matrix.add_mul, Matrix.mul_add]
  rw [hT11, hT12, hT21, hT22]
  simp only [add_zero, zero_add]

lemma proj_block_identity {n1 n2 : ℕ} (S : Matrix (Fin (n1 + n2)) (Fin (n1 + n2)) α)
    (U1 : Matrix (Fin n1) (Fin n1) α) (Λ1 sq1 : Fin n1 → α)
    (U2 : Matrix (Fin (n1 + n2)) (Fin (n1 + n2)) α) (Λ2 sq2 : Fin (n1 + n2) → α)
    (thres : α) (hS : Sᵀ = S)
    (h1 : S1block S = U1 * Matrix.diagonal Λ1 * U1ᵀ) (hU1 : U1ᵀ * U1 = 1)
    (hsq1 : ∀ k ∈ keptList Λ1 thres, sq1 k * sq1 k = Λ1 k ∧ sq1 k ≠ 0)
    (h2 : S2proj n1 n2 S U1 Λ1 sq1 thres = U2 * Matrix.diagonal Λ2 * U2ᵀ)
    (hU2 : U2ᵀ * U2 = 1)
    (hsq2 : ∀ k ∈ keptList Λ2 thres, sq2 k * sq2 k = Λ2 k ∧ sq2 k ≠ 0)
    (hfull : (keptList Λ1 thres).length = n1)
    (p q : Fin (n1 + n2))
    (hp : (p : ℕ) < orthogonalization_projective_numnonred n1 n2 Λ2 thres)
    (hq : (q : ℕ) < orthogonalization_projective_numnonred n1 n2 Λ2 thres) :
    ((orthogonalization_projective_X n1 n2 S U1 Λ1 sq1 U2 Λ2 sq2 thres)ᵀ * S
        * orthogonalization_projective_X n1 n2 S U1 Λ1 sq1 U2 Λ2 sq2 thres) p q
      = if p = q then 1 else 0 := by
  rw [proj_M_eq S U1 Λ1 sq1 U2 Λ2 sq2 thres hS h1 hU1 hsq1 h2 hU2 hsq2 hfull]
  rw [Matrix.add_apply, embed_embedT_apply, shiftT_diag_shift]
  unfold orthogonalization_projective_numnonred at hp hq
  by_cases hpq : p = q
  · subst hpq
    rw [if_pos rfl]
    by_cases hlt : (p : ℕ) < n1
    · rw [if_pos ⟨rfl, hlt⟩, if_neg (fun hcon => by omega), add_zero]
    · rw [if_neg (fun hcon => hlt hcon.2), if_pos ⟨rfl, by omega⟩,
        if_pos (by show (p : ℕ) - n1 < (keptList Λ2 thres).length; omega), zero_add]
  · have hv : (p : ℕ) ≠ (q : ℕ) := fun hcon => hpq (Fin.ext hcon)
    rw [if_neg hpq, if_neg (fun hcon => hv hcon.1), if_neg (fun hcon => hv hcon.1),
      add_zero]

lemma keptOf_length_bound {n : ℕ} (const_num_op : Bool) (num_op : ℕ)
    (Λ : Fin n → α) (thres : α) (p : Fin n)
    (hp : (p : ℕ) < orthogonalization_numnonred const_num_op num_op Λ thres) :
    (p : ℕ) < (keptOf const_num_op num_op Λ thres).length := by
  cases const_num_op
  · simpa [orthogonalization_numnonred, keptOf] using hp
  · simp only [orthogonalization_numnonred, keptOf, if_pos] at hp ⊢
    rw [keptListConst_length]
    have hlt := p.isLt
    omega

lemma direct_block_identity {n : ℕ} (S U : Matrix (Fin n) (Fin n) α)
    (Λ sq : Fin n → α) (thres : α) (const_num_op : Bool) (num_op : ℕ)
    (hS : S = U * Matrix.diagonal Λ * Uᵀ) (hU : Uᵀ * U = 1)
    (hsq : ∀ k ∈ keptOf const_num_op num_op Λ thres, sq k * sq k = Λ k ∧ sq k ≠ 0)
    (p q : Fin n)
    (hp : (p : ℕ) < orthogonalization_numnonred const_num_op num_op Λ thres)
    (hq : (q : ℕ) < orthogonalization_numnonred const_num_op num_op Λ thres) :
    ((orthogonalization_X U Λ sq thres const_num_op num_op)ᵀ * S
        * orthogonalization_X U Λ sq thres const_num_op num_op) p q
      = if p = q then 1 else 0 := by
  unfold orthogonalization_X
  rw [buildX_sandwich S U Λ sq (keptOf const_num_op num_op Λ thres)
    (eigh_sandwich S U Λ hS hU) (keptOf_nodup const_num_op num_op Λ thres) hsq]
  exact diagonal_ind_entry _ p q (keptOf_length_bound const_num_op num_op Λ thres p hp)

lemma GNO_block_identity {n : ℕ} (S Y U : Matrix (Fin n) (Fin n) α)
    (Λ sq : Fin n → α) (thres : α)
    (hGNO : S_GNO S Y = U * Matrix.diagonal Λ * Uᵀ) (hU : Uᵀ * U = 1)
    (hsq : ∀ k ∈ keptList Λ thres, sq k * sq k = Λ k ∧ sq k ≠ 0)
    (p q : Fin n)
    (hp : (p : ℕ) < orthogonalization_GNO_numnonred Λ thres)
    (hq : (q : ℕ) < orthogonalization_GNO_numnonred Λ thres) :
    ((orthogonalization_GNO_X Y U Λ sq thres)ᵀ * S
        * orthogonalization_GNO_X Y U Λ sq thres) p q = if p = q then 1 else 0 := by
  have key := buildX_sandwich (S_GNO S Y) U Λ sq (keptList Λ thres)
    (eigh_sandwich (S_GNO S Y) U Λ hGNO hU) (keptList_nodup Λ thres) hsq
  unfold S_GNO at key
  have hmat : (orthogonalization_GNO_X Y U Λ sq thres)ᵀ * S
        * orthogonalization_GNO_X Y U Λ sq thres
      = Matrix.diagonal (fun c : Fin n =>
          if (c : ℕ) < (keptList Λ thres).length then 1 else 0) := by
    unfold orthogonalization_GNO_X
    rw [Matrix.transpose_mul]
    simp only [Matrix.mul_assoc] at key ⊢
    exact key
  rw [hmat]
  exact diagonal_ind_entry _ p q hp

end ProjLemmas

open Matrix

/-- C1 (amended): round-trip orthogonality.  Under the eigendecomposition
and square-root oracle contracts, `Xᵀ S X` restricted to the first
`numnonred` rows and columns is the identity for the direct variant (in both
threshold and fixed-count modes) and for the GNO variant; for the projective
variant it is the identity provided the single-excitation block has full
numerical rank (all `namps_1` eigenvalues of `S1` above the threshold).  The
unamended claim is false for the projective variant with a rank-deficient
single block: see the counterexample. -/
theorem C1_xsx_block_identity :
    (∀ (α : Type) [inst : LinearOrderedField α] (n : ℕ)
        (S U : Matrix (Fin n) (Fin n) α) (Λ sq : Fin n → α) (thres : α)
        (const_num_op : Bool) (num_op : ℕ),
      S = U * Matrix.diagonal Λ * Uᵀ → Uᵀ * U = 1 →
      (∀ k ∈ keptOf const_num_op num_op Λ thres, sq k * sq k = Λ k ∧ sq k ≠ 0) →
      ∀ p q : Fin n,
        (p : ℕ) < orthogonalization_numnonred const_num_op num_op Λ thres →
        (q : ℕ) < orthogonalization_numnonred const_num_op num_op Λ thres →
        ((orthogonalization_X U Λ sq thres const_num_op num_op)ᵀ * S
            * orthogonalization_X U Λ sq thres const_num_op num_op) p q
          = if p = q then 1 else 0)
    ∧ (∀ (α : Type) [inst : LinearOrderedField α] (n : ℕ)
        (S Y U : Matrix (Fin n) (Fin n) α) (Λ sq : Fin n → α) (thres : α),
      S_GNO S Y = U * Matrix.diagonal Λ * Uᵀ → Uᵀ * U = 1 →
      (∀ k ∈ keptList Λ thres, sq k * sq k = Λ k ∧ sq k ≠ 0) →
      ∀ p q : Fin n,
        (p : ℕ) < orthogonalization_GNO_numnonred Λ thres →
        (q : ℕ) < orthogonalization_GNO_numnonred Λ thres →
        ((orthogonalization_GNO_X Y U Λ sq thres)ᵀ * S
            * orthogonalization_GNO_X Y U Λ sq thres) p q
          = if p = q then 1 else 0)
    ∧ (∀ (α : Type) [inst : LinearOrderedField α] (n1 n2 : ℕ)
        (S : Matrix (Fin (n1 + n2)) (Fin (n1 + n2)) α)
        (U1 : Matrix (Fin n1) (Fin n1) α) (Λ1 sq1 : Fin n1 → α)
        (U2 : Matrix (Fin (n1 + n2)) (Fin (n1 + n2)) α)
        (Λ2 sq2 : Fin (n1 + n2) → α) (thres : α),
      Sᵀ = S →
      S1block S = U1 * Matrix.diagonal Λ1 * U1ᵀ → U1ᵀ * U1 = 1 →
      (∀ k ∈ keptList Λ1 thres, sq1 k * sq1 k = Λ1 k ∧ sq1 k ≠ 0) →
      S2proj n1 n2 S U1 Λ1 sq1 thres = U2 * Matrix.diagonal Λ2 * U2ᵀ →
      U2ᵀ * U2 = 1 →
      (∀ k ∈ keptList Λ2 thres, sq2 k * sq2 k = Λ2 k ∧ sq2 k ≠ 0) →
      (keptList Λ1 thres).length = n1 →
      ∀ p q : Fin (n1 + n2),
        (p : ℕ) < orthogonalization_projective_numnonred n1 n2 Λ2 thres →
        (q : ℕ) < orthogonalization_projective_numnonred n1 n2 Λ2 thres →
        ((orthogonalization_projective_X n1 n2 S U1 Λ1 sq1 U2 Λ2 sq2 thres)ᵀ * S
            * orthogonalization_projective_X n1 n2 S U1 Λ1 sq1 U2 Λ2 sq2 thres) p q
          = if p = q then 1 else 0) := by
  refine ⟨?_, ?_, ?_⟩
  · intro α _ n S U Λ sq thres const_num_op num_op hS hU hsq p q hp hq
    exact direct_block_identity S U Λ sq thres const_num_op num_op hS hU hsq p q hp hq
  · intro α _ n S Y U Λ sq thres hGNO hU hsq p q hp hq
    exact GNO_block_identity S Y U Λ sq thres hGNO hU hsq p q hp hq
  · intro α _ n1 n2 S U1 Λ1 sq1 U2 Λ2 sq2 thres hS h1 hU1 hsq1 h2 hU2 hsq2 hfull
      p q hp hq
    exact proj_block_identity S U1 Λ1 sq1 U2 Λ2 sq2 thres hS h1 hU1 hsq1 h2 hU2
      hsq2 hfull p q hp hq

lemma finRange_two : List.finRange 2 = [0, 1] := by decide

lemma finRange_three : List.finRange 3 = [0, 1, 2] := by decide

lemma keptList_01 : keptList (![0, 1] : Fin 2 → ℚ) (1 / 2) = [1] := by
  rw [keptList, finRange_two]
  norm_num [List.filter]

lemma keptList_001 : keptList (![0, 0, 1] : Fin 3 → ℚ) (1 / 2) = [2] := by
  rw [keptList, finRange_three]
  norm_num [List.filter]

lemma C1c_X1mat :
    X1proj 2 1 C1c_U1 ![0, 1] (fun _ => 1) (1 / 2)
      = Matrix.of fun (i : Fin (2 + 1)) (c : Fin 2) =>
          if (i : ℕ) = 0 ∧ (c : ℕ) = 0 then (1 : ℚ) else 0 := by
  rw [X1proj, keptList_01]
  ext i c
  fin_cases i <;> fin_cases c <;>
    simp [embedMat, buildX, Matrix.mul_apply, Fin.sum_univ_succ, C1c_U1]

lemma C1c_Qmat :
    Qproj 2 1 C1c_S C1c_U1 ![0, 1] (fun _ => 1) (1 / 2)
      = Matrix.of fun (i j : Fin (2 + 1)) =>
          if i = j ∧ (i : ℕ) ≠ 0 then (1 : ℚ) else 0 := by
  rw [Qproj, C1c_X1mat]
  ext i j
  fin_cases i <;> fin_cases j <;>
    simp [Matrix.mul_apply, Fin.sum_univ_succ, C1c_S, Matrix.one_apply,
      Matrix.sub_apply, Matrix.transpose_apply]

lemma C1c_S2mat :
    S2proj 2 1 C1c_S C1c_U1 ![0, 1] (fun _ => 1) (1 / 2)
      = Matrix.of fun (i j : Fin (2 + 1)) =>
          if i = j ∧ (i : ℕ) = 2 then (1 : ℚ) else 0 := by
  rw [S2proj, C1c_Qmat]
  ext i j
  fin_cases i <;> fin_cases j <;>
    simp [Matrix.mul_apply, Fin.sum_univ_succ, C1c_S, Matrix.transpose_apply]

lemma C1c_X2mat :
    X2proj 2 1 C1c_S C1c_U1 ![0, 1] (fun _ => 1) 1 ![0, 0, 1] (fun _ => 1) (1 / 2)
      = Matrix.of fun (i c : Fin (2 + 1)) =>
          if (i : ℕ) = 2 ∧ (c : ℕ) = 0 then (1 : ℚ) else 0 := by
  rw [X2proj, C1c_Qmat, keptList_001]
  ext i c
  fin_cases i <;> fin_cases c <;>
    simp [buildX, Matrix.mul_apply, Fin.sum_univ_succ, Matrix.one_apply]

lemma C1c_Xmat :
    orthogonalization_projective_X 2 1 C1c_S C1c_U1 ![0, 1] (fun _ => 1) 1
        ![0, 0, 1] (fun _ => 1) (1 / 2)
      = Matrix.of fun (i c : Fin (2 + 1)) =>
          if ((i : ℕ) = 0 ∧ (c : ℕ) = 0) ∨ ((i : ℕ) = 2 ∧ (c : ℕ) = 2) then (1 : ℚ)
          else 0 := by
  unfold orthogonalization_projective_X
  rw [C1c_X1mat, C1c_X2mat]
  ext i c
  fin_cases i <;> fin_cases c <;> simp

/-- C1 counterexample: for the projective variant on a basis whose
single-excitation block is rank deficient (one of the two singles is the
zero vector, so `S1 = diag(1, 0)`), the returned `numnonred` counts all
`namps_1` single columns including the zero ones, and `Xᵀ S X` restricted to
the first `numnonred` rows/columns is not the identity: its (1,1) entry is 0.
The eigendecomposition and square-root oracle contracts all hold for this
input, so this is a valid run of `orthogonalization_projective`. -/
theorem C1_counterexample :
    C1c_Sᵀ = C1c_S
      ∧ S1block C1c_S = C1c_U1 * Matrix.diagonal ![0, 1] * C1c_U1ᵀ
      ∧ C1c_U1ᵀ * C1c_U1 = 1
      ∧ (∀ k ∈ keptList (![0, 1] : Fin 2 → ℚ) (1 / 2),
          (fun _ : Fin 2 => (1 : ℚ)) k * (fun _ : Fin 2 => (1 : ℚ)) k = ![0, 1] k
            ∧ (fun _ : Fin 2 => (1 : ℚ)) k ≠ 0)
      ∧ S2proj 2 1 C1c_S C1c_U1 ![0, 1] (fun _ => 1) (1 / 2)
          = 1 * Matrix.diagonal ![0, 0, 1]
              * (1 : Matrix (Fin (2 + 1)) (Fin (2 + 1)) ℚ)ᵀ
      ∧ (1 : Matrix (Fin (2 + 1)) (Fin (2 + 1)) ℚ)ᵀ
          * (1 : Matrix (Fin (2 + 1)) (Fin (2 + 1)) ℚ) = 1
      ∧ (∀ k ∈ keptList (![0, 0, 1] : Fin (2 + 1) → ℚ) (1 / 2),
          (fun _ : Fin (2 + 1) => (1 : ℚ)) k * (fun _ : Fin (2 + 1) => (1 : ℚ)) k
              = ![0, 0, 1] k
            ∧ (fun _ : Fin (2 + 1) => (1 : ℚ)) k ≠ 0)
      ∧ (1 : ℕ) < orthogonalization_projective_numnonred 2 1
          (![0, 0, 1] : Fin (2 + 1) → ℚ) (1 / 2)
      ∧ ((orthogonalization_projective_X 2 1 C1c_S C1c_U1 ![0, 1] (fun _ => 1) 1
            ![0, 0, 1] (fun _ => 1) (1 / 2))ᵀ * C1c_S
          * orthogonalization_projective_X 2 1 C1c_S C1c_U1 ![0, 1] (fun _ => 1) 1
            ![0, 0, 1] (fun _ => 1) (1 / 2)) 1 1 ≠ 1 := by
  refine ⟨?_, ?_, ?_, ?_, ?_, ?_, ?_, ?_, ?_⟩
  · ext i j
    fin_cases i <;> fin_cases j <;> simp [C1c_S, Matrix.transpose_apply]
  · ext a b
    fin_cases a <;> fin_cases b <;>
      simp [S1block, C1c_S, C1c_U1, Matrix.submatrix_apply, Matrix.mul_apply,
        Fin.sum_univ_succ, Matrix.diagonal_apply, Matrix.transpose_apply,
        Fin.castAdd] <;> decide
  · ext a b
    fin_cases a <;> fin_cases b <;>
      simp [C1c_U1, Matrix.mul_apply, Fin.sum_univ_succ, Matrix.one_apply,
        Matrix.transpose_apply]
  · intro k hk
    rw [keptList_01] at hk
    simp only [List.mem_singleton] at hk
    subst hk
    norm_num
  · rw [C1c_S2mat]
    ext i j
    fin_cases i <;> fin_cases j <;>
      simp [Matrix.mul_apply, Fin.sum_univ_succ, Matrix.diagonal_apply,
        Matrix.one_apply, Matrix.transpose_apply]
  · simp
  · intro k hk
    rw [keptList_001] at hk
    simp only [List.mem_singleton] at hk
    subst hk
    norm_num
  · unfold orthogonalization_projective_numnonred
    rw [keptList_001]
    norm_num
  · rw [C1c_Xmat]
    simp [Matrix.mul_apply, Fin.sum_univ_succ, C1c_S, Matrix.transpose_apply]

lemma finRange_one : List.finRange 1 = [0] := by decide

lemma keptList_4 : keptList (![4] : Fin 1 → ℚ) (1 / 2) = [0] := by
  rw [keptList, finRange_one]
  norm_num [List.filter]

lemma keptList_lone : keptList (![1] : Fin 1 → ℚ) (1 / 2) = [0] := by
  rw [keptList, finRange_one]
  norm_num [List.filter]

lemma C1w_X1mat :
    X1proj 1 1 (1 : Matrix (Fin 1) (Fin 1) ℚ) ![1] ![1] (1 / 2)
      = Matrix.of fun (i : Fin (1 + 1)) (_ : Fin 1) =>
          if (i : ℕ) = 0 then (1 : ℚ) else 0 := by
  rw [X1proj, keptList_lone]
  ext i c
  fin_cases i <;> fin_cases c <;>
    simp [embedMat, buildX, Matrix.mul_apply, Fin.sum_univ_succ,
      Matrix.one_apply]

lemma C1w_S2mat :
    S2proj 1 1 (1 : Matrix (Fin (1 + 1)) (Fin (1 + 1)) ℚ) 1 ![1] ![1] (1 / 2)
      = Matrix.of fun (i j : Fin (1 + 1)) =>
          if i = j ∧ (i : ℕ) = 1 then (1 : ℚ) else 0 := by
  have hQ : Qproj 1 1 (1 : Matrix (Fin (1 + 1)) (Fin (1 + 1)) ℚ) 1 ![1] ![1] (1 / 2)
      = Matrix.of fun (i j : Fin (1 + 1)) =>
          if i = j ∧ (i : ℕ) = 1 then (1 : ℚ) else 0 := by
    rw [Qproj, C1w_X1mat]
    ext i j
    fin_cases i <;> fin_cases j <;>
      simp [Matrix.mul_apply, Fin.sum_univ_succ, Matrix.one_apply,
        Matrix.sub_apply, Matrix.transpose_apply]
  rw [S2proj, hQ]
  ext i j
  fin_cases i <;> fin_cases j <;>
    simp [Matrix.mul_apply, Fin.sum_univ_succ, Matrix.one_apply,
      Matrix.transpose_apply]

/-- Concrete instantiation of (amended) C1 for each of the three variants:
the retained block of `Xᵀ S X` evaluates to the identity on small valid
inputs over `ℚ`. -/
theorem C1_witness :
    ((orthogonalization_X (1 : Matrix (Fin 1) (Fin 1) ℚ) ![4] ![2] (1 / 2)
          false 0)ᵀ * C1w_S
        * orthogonalization_X (1 : Matrix (Fin 1) (Fin 1) ℚ) ![4] ![2] (1 / 2)
          false 0) 0 0 = 1
      ∧ ((orthogonalization_GNO_X C1w_Y 1 ![0, 1] ![1, 1] (1 / 2))ᵀ * C1w_SG
          * orthogonalization_GNO_X C1w_Y 1 ![0, 1] ![1, 1] (1 / 2)) 0 0 = 1
      ∧ ((orthogonalization_projective_X 1 1
            (1 : Matrix (Fin (1 + 1)) (Fin (1 + 1)) ℚ) 1 ![1] ![1] 1 ![0, 1]
            ![1, 1] (1 / 2))ᵀ * (1 : Matrix (Fin (1 + 1)) (Fin (1 + 1)) ℚ)
          * orthogonalization_projective_X 1 1
            (1 : Matrix (Fin (1 + 1)) (Fin (1 + 1)) ℚ) 1 ![1] ![1] 1 ![0, 1]
            ![1, 1] (1 / 2)) 1 1 = 1 := by
  refine ⟨?_, ?_, ?_⟩
  · have h := C1_xsx_block_identity.1 ℚ 1 C1w_S 1 ![4] ![2] (1 / 2) false 0
      (by ext i j; fin_cases i; fin_cases j;
          simp [C1w_S, Matrix.mul_apply, Fin.sum_univ_succ, Matrix.diagonal_apply,
            Matrix.one_apply])
      (by simp)
      (by intro k hk
          fin_cases k
          norm_num)
      0 0
      (by unfold orthogonalization_numnonred
          rw [if_neg (by decide), keptList_4]
          decide)
      (by unfold orthogonalization_numnonred
          rw [if_neg (by decide), keptList_4]
          decide)
    simpa using h
  · have h := C1_xsx_block_identity.2.1 ℚ 2 C1w_SG C1w_Y 1 ![0, 1] ![1, 1] (1 / 2)
      (by unfold S_GNO
          ext i j
          fin_cases i <;> fin_cases j <;>
            simp [C1w_SG, C1w_Y, Matrix.mul_apply, Fin.sum_univ_succ,
              Matrix.diagonal_apply, Matrix.one_apply, Matrix.transpose_apply])
      (by simp)
      (by intro k hk
          rw [keptList_01] at hk
          simp only [List.mem_singleton] at hk
          subst hk
          norm_num)
      0 0
      (by unfold orthogonalization_GNO_numnonred
          rw [keptList_01]
          decide)
      (by unfold orthogonalization_GNO_numnonred
          rw [keptList_01]
          decide)
    simpa using h
  · have h := C1_xsx_block_identity.2.2 ℚ 1 1
      (1 : Matrix (Fin (1 + 1)) (Fin (1 + 1)) ℚ) 1 ![1] ![1] 1 ![0, 1] ![1, 1]
      (1 / 2)
      (by simp)
      (by ext a b
          fin_cases a; fin_cases b
          simp [S1block, Matrix.mul_apply, Fin.sum_univ_succ,
            Matrix.diagonal_apply, Matrix.one_apply, Matrix.submatrix_apply])
      (by simp)
      (by intro k hk
          rw [keptList_lone] at hk
          simp only [List.mem_singleton] at hk
          subst hk
          norm_num)
      (by rw [C1w_S2mat]
          ext i j
          fin_cases i <;> fin_cases j <;>
            simp [Matrix.mul_apply, Fin.sum_univ_succ, Matrix.diagonal_apply,
              Matrix.one_apply, Matrix.transpose_apply])
      (by simp)
      (by intro k hk
          rw [keptList_01] at hk
          simp only [List.mem_singleton] at hk
          subst hk
          norm_num)
      (by rw [keptList_lone]; rfl)
      1 1
      (by unfold orthogonalization_projective_numnonred
          rw [keptList_01]
          decide)
      (by unfold orthogonalization_projective_numnonred
          rw [keptList_01]
          decide)
    simpa using h

lemma keptList_034 : keptList (![0, 3 / 4] : Fin 2 → ℚ) (1 / 2) = [1] := by
  rw [keptList, finRange_two]
  norm_num [List.filter]

lemma keptList_02 : keptList (![0, 2] : Fin 2 → ℚ) (1 / 2) = [1] := by
  rw [keptList, finRange_two]
  norm_num [List.filter]

lemma C2c_Qmat :
    Qproj 1 1 C2c_S 1 ![1] ![1] (1 / 2)
      = Matrix.of fun (i j : Fin (1 + 1)) =>
          if (j : ℕ) = 1 then (if (i : ℕ) = 0 then -(1 / 2) else 1) else 0 := by
  rw [Qproj, C1w_X1mat]
  ext i j
  fin_cases i <;> fin_cases j <;>
    simp [C2c_S, Matrix.mul_apply, Fin.sum_univ_succ, Matrix.one_apply,
      Matrix.sub_apply, Matrix.transpose_apply] <;> norm_num

lemma C2c_S2mat :
    S2proj 1 1 C2c_S 1 ![1] ![1] (1 / 2)
      = Matrix.of fun (i j : Fin (1 + 1)) =>
          if i = j ∧ (i : ℕ) = 1 then 3 / 4 else 0 := by
  rw [S2proj, C2c_Qmat]
  ext i j
  fin_cases i <;> fin_cases j <;>
    simp [C2c_S, Matrix.mul_apply, Fin.sum_univ_succ, Matrix.transpose_apply]
      <;> norm_num

lemma C2c_Pmat :
    orthogonalization_projective_P 1 1 C2c_S 1 ![1] ![1] 1 ![0, 3 / 4] (1 / 2)
      = Matrix.of fun (i j : Fin (1 + 1)) =>
          if (i : ℕ) = 0 ∧ (j : ℕ) = 0 then 5 / 4
          else if (i : ℕ) = 1 ∧ (j : ℕ) = 1 then 1 else -(1 / 2) := by
  rw [orthogonalization_projective_P, C2c_Qmat, keptList_lone, keptList_034]
  ext i j
  fin_cases i <;> fin_cases j <;>
    simp [buildP, embedMat, Matrix.mul_apply, Fin.sum_univ_succ,
      Matrix.one_apply] <;> norm_num

lemma C2c_PGmat :
    orthogonalization_GNO_P C1w_Y C2c_Yinv 1 ![0, 2] (1 / 2)
      = Matrix.of fun (i j : Fin 2) => if (j : ℕ) = 1 then 1 else 0 := by
  rw [orthogonalization_GNO_P, keptList_02]
  ext i j
  fin_cases i <;> fin_cases j <;>
    simp [buildP, C1w_Y, C2c_Yinv, Matrix.mul_apply, Fin.sum_univ_succ,
      Matrix.one_apply] <;> norm_num

/-- C2, amended: projector properties hold per variant, not uniformly. The
direct variant's `P = U_kept U_keptᵀ` is symmetric, and idempotent whenever
the `eigh` eigenvector matrix is orthonormal. The projective variant's `P`
is symmetric (a sum of two Gram matrices) but not idempotent in general.
The GNO variant's `P = Y U_kept U_keptᵀ Y⁻¹` is idempotent whenever the
eigenvector matrix is orthonormal and `Yinv` is a true left inverse of `Y`,
but not symmetric in general. -/
theorem C2_projector_properties :
    (∀ (α : Type) [inst : LinearOrderedField α] (n : ℕ)
        (eigvec : Matrix (Fin n) (Fin n) α) (eigval : Fin n → α) (thres : α)
        (const_num_op : Bool) (num_op : ℕ),
      eigvecᵀ * eigvec = 1 →
      (orthogonalization_P eigvec eigval thres const_num_op num_op)ᵀ
            = orthogonalization_P eigvec eigval thres const_num_op num_op
        ∧ orthogonalization_P eigvec eigval thres const_num_op num_op
              * orthogonalization_P eigvec eigval thres const_num_op num_op
            = orthogonalization_P eigvec eigval thres const_num_op num_op)
    ∧ (∀ (α : Type) [inst : LinearOrderedField α] (n1 n2 : ℕ)
        (S : Matrix (Fin (n1 + n2)) (Fin (n1 + n2)) α)
        (U1 : Matrix (Fin n1) (Fin n1) α) (Λ1 sq1 : Fin n1 → α)
        (U2 : Matrix (Fin (n1 + n2)) (Fin (n1 + n2)) α)
        (Λ2 : Fin (n1 + n2) → α) (thres : α),
      (orthogonalization_projective_P n1 n2 S U1 Λ1 sq1 U2 Λ2 thres)ᵀ
        = orthogonalization_projective_P n1 n2 S U1 Λ1 sq1 U2 Λ2 thres)
    ∧ (∀ (α : Type) [inst : LinearOrderedField α] (n : ℕ)
        (Y Yinv eigvec : Matrix (Fin n) (Fin n) α) (eigval : Fin n → α)
        (thres : α),
      eigvecᵀ * eigvec = 1 → Yinv * Y = 1 →
      orthogonalization_GNO_P Y Yinv eigvec eigval thres
          * orthogonalization_GNO_P Y Yinv eigvec eigval thres
        = orthogonalization_GNO_P Y Yinv eigvec eigval thres) := by
  refine ⟨?_, ?_, ?_⟩
  · intro α _ n eigvec eigval thres const_num_op num_op hU
    constructor
    · unfold orthogonalization_P
      exact buildP_transpose _ _
    · unfold orthogonalization_P
      exact buildP_idempotent _ _ hU (keptOf_nodup _ _ _ _)
  · intro α _ n1 n2 S U1 Λ1 sq1 U2 Λ2 thres
    unfold orthogonalization_projective_P
    rw [Matrix.transpose_add, buildP_transpose, buildP_transpose]
  · intro α _ n Y Yinv eigvec eigval thres hU hYinv
    unfold orthogonalization_GNO_P
    have hB := buildP_idempotent eigvec (keptList eigval thres) hU
      (keptList_nodup _ _)
    calc Y * buildP eigvec (keptList eigval thres) * Yinv
          * (Y * buildP eigvec (keptList eigval thres) * Yinv)
        = Y * (buildP eigvec (keptList eigval thres)
            * ((Yinv * Y) * (buildP eigvec (keptList eigval thres) * Yinv))) := by
          simp only [Matrix.mul_assoc]
      _ = Y * (buildP eigvec (keptList eigval thres)
            * (buildP eigvec (keptList eigval thres) * Yinv)) := by
          rw [hYinv, Matrix.one_mul]
      _ = Y * ((buildP eigvec (keptList eigval thres)
            * buildP eigvec (keptList eigval thres)) * Yinv) := by
          simp only [Matrix.mul_assoc]
      _ = Y * (buildP eigvec (keptList eigval thres) * Yinv) := by rw [hB]
      _ = Y * buildP eigvec (keptList eigval thres) * Yinv := by
          simp only [Matrix.mul_assoc]

/-- Concrete instantiation of (amended) C2 over `ℚ`: the direct projector is
symmetric and idempotent, the projective projector is symmetric, and the GNO
projector is idempotent, on small valid inputs. -/
theorem C2_witness :
    ((orthogonalization_P (1 : Matrix (Fin 1) (Fin 1) ℚ) ![1] (1 / 2) false 0)ᵀ
          = orthogonalization_P (1 : Matrix (Fin 1) (Fin 1) ℚ) ![1] (1 / 2)
            false 0
      ∧ orthogonalization_P (1 : Matrix (Fin 1) (Fin 1) ℚ) ![1] (1 / 2) false 0
            * orthogonalization_P (1 : Matrix (Fin 1) (Fin 1) ℚ) ![1] (1 / 2)
              false 0
          = orthogonalization_P (1 : Matrix (Fin 1) (Fin 1) ℚ) ![1] (1 / 2)
            false 0)
    ∧ (orthogonalization_projective_P 1 1
          (1 : Matrix (Fin (1 + 1)) (Fin (1 + 1)) ℚ) 1 ![1] ![1] 1 ![0, 1]
          (1 / 2))ᵀ
        = orthogonalization_projective_P 1 1
          (1 : Matrix (Fin (1 + 1)) (Fin (1 + 1)) ℚ) 1 ![1] ![1] 1 ![0, 1]
          (1 / 2)
    ∧ orthogonalization_GNO_P (1 : Matrix (Fin 1) (Fin 1) ℚ) 1 1 ![1] (1 / 2)
          * orthogonalization_GNO_P (1 : Matrix (Fin 1) (Fin 1) ℚ) 1 1 ![1]
            (1 / 2)
        = orthogonalization_GNO_P (1 : Matrix (Fin 1) (Fin 1) ℚ) 1 1 ![1]
          (1 / 2) :=
  ⟨C2_projector_properties.1 ℚ 1 1 ![1] (1 / 2) false 0 (by simp),
   C2_projector_properties.2.1 ℚ 1 1 1 1 ![1] ![1] 1 ![0, 1] (1 / 2),
   C2_projector_properties.2.2 ℚ 1 1 1 1 ![1] (1 / 2) (by simp) (by simp)⟩

/-- Refutation of C2 as stated: on valid inputs satisfying every oracle
contract, the projective variant's projector is not idempotent and the GNO
variant's projector is not symmetric. -/
theorem C2_counterexample :
    C2c_Sᵀ = C2c_S
      ∧ S1block C2c_S
          = 1 * Matrix.diagonal ![1] * (1 : Matrix (Fin 1) (Fin 1) ℚ)ᵀ
      ∧ (1 : Matrix (Fin 1) (Fin 1) ℚ)ᵀ * 1 = 1
      ∧ (∀ k ∈ keptList (![1] : Fin 1 → ℚ) (1 / 2),
          (![1] : Fin 1 → ℚ) k * (![1] : Fin 1 → ℚ) k = (![1] : Fin 1 → ℚ) k
            ∧ (![1] : Fin 1 → ℚ) k ≠ 0)
      ∧ S2proj 1 1 C2c_S 1 ![1] ![1] (1 / 2)
          = 1 * Matrix.diagonal ![0, 3 / 4]
            * (1 : Matrix (Fin (1 + 1)) (Fin (1 + 1)) ℚ)ᵀ
      ∧ (orthogonalization_projective_P 1 1 C2c_S 1 ![1] ![1] 1 ![0, 3 / 4]
            (1 / 2)
          * orthogonalization_projective_P 1 1 C2c_S 1 ![1] ![1] 1 ![0, 3 / 4]
            (1 / 2)) 0 0
        ≠ orthogonalization_projective_P 1 1 C2c_S 1 ![1] ![1] 1 ![0, 3 / 4]
            (1 / 2) 0 0
      ∧ S_GNO C2c_SG C1w_Y
          = 1 * Matrix.diagonal ![0, 2] * (1 : Matrix (Fin 2) (Fin 2) ℚ)ᵀ
      ∧ C2c_Yinv * C1w_Y = 1
      ∧ orthogonalization_GNO_P C1w_Y C2c_Yinv 1 ![0, 2] (1 / 2) 0 1
        ≠ orthogonalization_GNO_P C1w_Y C2c_Yinv 1 ![0, 2] (1 / 2) 1 0 := by
  refine ⟨?_, ?_, by simp, ?_, ?_, ?_, ?_, ?_, ?_⟩
  · ext i j
    fin_cases i <;> fin_cases j <;>
      simp [C2c_S, Matrix.transpose_apply]
  · ext a b
    fin_cases a; fin_cases b
    simp [S1block, C2c_S, Matrix.mul_apply, Fin.sum_univ_succ,
      Matrix.diagonal_apply, Matrix.one_apply, Matrix.submatrix_apply]
  · intro k hk
    fin_cases k
    norm_num
  · rw [C2c_S2mat]
    ext i j
    fin_cases i <;> fin_cases j <;>
      simp [Matrix.mul_apply, Fin.sum_univ_succ, Matrix.diagonal_apply,
        Matrix.one_apply, Matrix.transpose_apply]
  · rw [C2c_Pmat]
    simp [Matrix.mul_apply, Fin.sum_univ_succ]
    norm_num
  · unfold S_GNO
    ext i j
    fin_cases i <;> fin_cases j <;>
      simp [C2c_SG, C1w_Y, Matrix.mul_apply, Fin.sum_univ_succ,
        Matrix.diagonal_apply, Matrix.one_apply, Matrix.transpose_apply]
  · ext i j
    fin_cases i <;> fin_cases j <;>
      simp [C2c_Yinv, C1w_Y, Matrix.mul_apply, Fin.sum_univ_succ,
        Matrix.one_apply]
  · rw [C2c_PGmat]
    simp

section RankOneLemmas

variable {α : Type} [LinearOrderedField α]

lemma buildP_nil {n m : ℕ} (U : Matrix (Fin n) (Fin m) α) :
    buildP U ([] : List (Fin m)) = 0 := by
  ext i j
  simp [buildP]

lemma keptList_eq_nil {n : ℕ} {Λ : Fin n → α} {thres : α}
    (h : ∀ k, Λ k ≤ thres) : keptList Λ thres = [] := by
  unfold keptList
  rw [List.filter_eq_nil_iff]
  intro a _
  simp only [decide_eq_true_eq]
  exact not_lt.mpr (h a)

lemma embedMat_zero_mul {n1 m : ℕ} (M : Matrix (Fin n1) (Fin m) α) :
    embedMat (α := α) n1 0 * M = M := by
  ext i a
  have hi : (i : ℕ) < n1 := lt_of_lt_of_eq i.isLt (Nat.add_zero n1)
  rw [Matrix.mul_apply, Finset.sum_eq_single (⟨(i : ℕ), hi⟩ : Fin n1)]
  · have h1 : embedMat (α := α) n1 0 i ⟨(i : ℕ), hi⟩ = 1 := by
      simp [embedMat]
    rw [h1, one_mul]
    exact congrFun (congrArg M (Fin.ext rfl)) a
  · intro k _ hk
    have hval : ¬(i : ℕ) = (k : ℕ) := by
      intro hcon
      exact hk (Fin.ext hcon.symm)
    simp [embedMat, hval]
  · intro h
    exact absurd (Finset.mem_univ _) h

lemma S1block_zero {n1 : ℕ} (S : Matrix (Fin (n1 + 0)) (Fin (n1 + 0)) α) :
    S1block S = S := by
  ext a b
  show S (Fin.castAdd 0 a) (Fin.castAdd 0 b) = S a b
  rw [show Fin.castAdd 0 a = a from Fin.ext rfl,
    show Fin.castAdd 0 b = b from Fin.ext rfl]

end RankOneLemmas

/-- C9, amended: with no rank-2 block (`namps_2 = 0`) and a full-rank
single-excitation metric (every eigenvalue passes the threshold), the
projective variant returns exactly the direct variant's output, both reading
the same eigendecomposition oracle of the (identical) metric: the projected
double-block metric `S2 = Qᵀ S Q` vanishes, so no double-block column is
retained and `(P, S, X, numnonred)` coincide componentwise. Without full
rank the retained ranks already differ (see the counterexample). -/
theorem C9_rank1_only_equivalence :
    ∀ (α : Type) [inst : LinearOrderedField α] (n1 : ℕ)
      (S : Matrix (Fin (n1 + 0)) (Fin (n1 + 0)) α)
      (U : Matrix (Fin n1) (Fin n1) α) (Λ sq : Fin n1 → α)
      (U2 : Matrix (Fin (n1 + 0)) (Fin (n1 + 0)) α)
      (Λ2 sq2 : Fin (n1 + 0) → α) (thres : α),
    S = U * Matrix.diagonal Λ * Uᵀ →
    Uᵀ * U = 1 →
    (∀ k ∈ keptList Λ thres, sq k * sq k = Λ k ∧ sq k ≠ 0) →
    (keptList Λ thres).length = n1 →
    S2proj n1 0 S U Λ sq thres = U2 * Matrix.diagonal Λ2 * U2ᵀ →
    U2ᵀ * U2 = 1 →
    0 ≤ thres →
    orthogonalization S U Λ sq thres false 0
      = orthogonalization_projective n1 0 S U Λ sq U2 Λ2 sq2 thres := by
  intro α _ n1 S U Λ sq U2 Λ2 sq2 thres hS hU hsq hfull h2 hU2 hthres
  have h1 : S1block S = U * Matrix.diagonal Λ * Uᵀ := by
    rw [S1block_zero]
    exact hS
  have hXSX1 := X1_S_X1_one S U Λ sq thres h1 hU hsq hfull
  have hX1S := Matrix.mul_eq_one_comm.mp hXSX1
  have hQ : Qproj n1 0 S U Λ sq thres = 0 := by
    unfold Qproj
    rw [Matrix.mul_assoc, hX1S, sub_eq_zero]
  have hS2 : S2proj n1 0 S U Λ sq thres = 0 := by
    unfold S2proj
    rw [hQ]
    simp
  have hdiag : Matrix.diagonal Λ2 = 0 := by
    rw [hS2] at h2
    calc Matrix.diagonal Λ2
        = (U2ᵀ * U2) * Matrix.diagonal Λ2 * (U2ᵀ * U2) := by
          rw [hU2, Matrix.one_mul, Matrix.mul_one]
      _ = U2ᵀ * (U2 * Matrix.diagonal Λ2 * U2ᵀ) * U2 := by
          simp only [Matrix.mul_assoc]
      _ = U2ᵀ * 0 * U2 := by rw [← h2]
      _ = 0 := by rw [Matrix.mul_zero, Matrix.zero_mul]
  have hΛ2 : ∀ k, Λ2 k = 0 := by
    intro k
    have h := Matrix.ext_iff.mpr hdiag k k
    simpa [Matrix.diagonal_apply_eq] using h
  have hkept2 : keptList Λ2 thres = [] :=
    keptList_eq_nil fun k => (hΛ2 k).le.trans hthres
  have hkeptOf : keptOf false 0 Λ thres = keptList Λ thres := rfl
  have hP : orthogonalization_P U Λ thres false 0
      = orthogonalization_projective_P n1 0 S U Λ sq U2 Λ2 thres := by
    unfold orthogonalization_P orthogonalization_projective_P
    rw [hkept2, buildP_nil, add_zero, embedMat_zero_mul, hkeptOf]
  have hX : orthogonalization_X U Λ sq thres false 0
      = orthogonalization_projective_X n1 0 S U Λ sq U2 Λ2 sq2 thres := by
    unfold orthogonalization_X orthogonalization_projective_X
    rw [hkeptOf]
    ext i c
    simp only [Matrix.of_apply]
    rw [dif_pos c.isLt, X1proj, embedMat_zero_mul]
  have hnum : orthogonalization_numnonred false 0 Λ thres
      = orthogonalization_projective_numnonred n1 0 Λ2 thres := by
    unfold orthogonalization_numnonred orthogonalization_projective_numnonred
    rw [if_neg (by decide), hkept2, hfull]
    simp
  unfold orthogonalization orthogonalization_projective
  simp only [Prod.mk.injEq]
  exact ⟨hP, trivial, hX, hnum⟩

lemma keptList_00 : keptList (![0, 0] : Fin 2 → ℚ) (1 / 2) = [] := by
  rw [keptList, finRange_two]
  norm_num [List.filter]

lemma C9c_X1mat :
    X1proj 2 0 C1c_U1 ![0, 1] (fun _ => 1) (1 / 2)
      = Matrix.of fun (i : Fin (2 + 0)) (c : Fin 2) =>
          if (i : ℕ) = 0 ∧ (c : ℕ) = 0 then (1 : ℚ) else 0 := by
  rw [X1proj, keptList_01]
  ext i c
  fin_cases i <;> fin_cases c <;>
    simp [embedMat, buildX, Matrix.mul_apply, Fin.sum_univ_succ, C1c_U1]

lemma C9c_Qmat :
    Qproj 2 0 C9c_S C1c_U1 ![0, 1] (fun _ => 1) (1 / 2)
      = Matrix.of fun (i j : Fin (2 + 0)) =>
          if i = j ∧ (i : ℕ) = 1 then (1 : ℚ) else 0 := by
  rw [Qproj, C9c_X1mat]
  ext i j
  fin_cases i <;> fin_cases j <;>
    simp [Matrix.mul_apply, Fin.sum_univ_succ, C9c_S, Matrix.one_apply,
      Matrix.sub_apply, Matrix.transpose_apply]

lemma C9c_S2mat :
    S2proj 2 0 C9c_S C1c_U1 ![0, 1] (fun _ => 1) (1 / 2) = 0 := by
  rw [S2proj, C9c_Qmat]
  ext i j
  fin_cases i <;> fin_cases j <;>
    simp [Matrix.mul_apply, Fin.sum_univ_succ, C9c_S, Matrix.transpose_apply]

/-- Refutation of C9 as stated: on a rank-1-only basis containing a zero
single excitation, the direct and projective variants (same threshold, all
oracle contracts satisfied) return different retained ranks: 1 versus 2. -/
theorem C9_counterexample :
    C9c_S = C1c_U1 * Matrix.diagonal ![0, 1] * C1c_U1ᵀ
      ∧ S1block C9c_S = C1c_U1 * Matrix.diagonal ![0, 1] * C1c_U1ᵀ
      ∧ C1c_U1ᵀ * C1c_U1 = 1
      ∧ (∀ k ∈ keptList (![0, 1] : Fin 2 → ℚ) (1 / 2),
          (fun _ => (1 : ℚ)) k * (fun _ => (1 : ℚ)) k = ![0, 1] k
            ∧ (fun _ => (1 : ℚ)) k ≠ 0)
      ∧ S2proj 2 0 C9c_S C1c_U1 ![0, 1] (fun _ => 1) (1 / 2)
          = 1 * Matrix.diagonal ![0, 0]
            * (1 : Matrix (Fin (2 + 0)) (Fin (2 + 0)) ℚ)ᵀ
      ∧ (1 : Matrix (Fin (2 + 0)) (Fin (2 + 0)) ℚ)ᵀ * 1 = 1
      ∧ (0 : ℚ) ≤ 1 / 2
      ∧ orthogonalization_numnonred false 0 (![0, 1] : Fin 2 → ℚ) (1 / 2)
        ≠ orthogonalization_projective_numnonred 2 0
            (![0, 0] : Fin (2 + 0) → ℚ) (1 / 2) := by
  refine ⟨?_, ?_, ?_, ?_, ?_, by simp, by norm_num, ?_⟩
  · ext i j
    fin_cases i <;> fin_cases j <;>
      simp [C9c_S, C1c_U1, Matrix.mul_apply, Fin.sum_univ_succ,
        Matrix.diagonal_apply, Matrix.transpose_apply]
  · rw [S1block_zero]
    ext i j
    fin_cases i <;> fin_cases j <;>
      simp [C9c_S, C1c_U1, Matrix.mul_apply, Fin.sum_univ_succ,
        Matrix.diagonal_apply, Matrix.transpose_apply]
  · ext i j
    fin_cases i <;> fin_cases j <;>
      simp [C1c_U1, Matrix.mul_apply, Fin.sum_univ_succ, Matrix.one_apply,
        Matrix.transpose_apply]
  · intro k hk
    rw [keptList_01] at hk
    simp only [List.mem_singleton] at hk
    subst hk
    norm_num
  · rw [C9c_S2mat]
    ext i j
    fin_cases i <;> fin_cases j <;>
      simp [Matrix.mul_apply, Fin.sum_univ_succ, Matrix.diagonal_apply,
        Matrix.one_apply, Matrix.transpose_apply]
  · have hd : orthogonalization_numnonred false 0 (![0, 1] : Fin 2 → ℚ) (1 / 2)
        = 1 := by
      unfold orthogonalization_numnonred
      rw [if_neg (by decide), keptList_01]
      rfl
    have hp : orthogonalization_projective_numnonred 2 0
        (![0, 0] : Fin (2 + 0) → ℚ) (1 / 2) = 2 := by
      unfold orthogonalization_projective_numnonred
      rw [keptList_00]
      rfl
    rw [hd, hp]
    decide

lemma C9w_S2mat :
    S2proj 1 0 (1 : Matrix (Fin (1 + 0)) (Fin (1 + 0)) ℚ) 1 ![1] ![1] (1 / 2)
      = 0 := by
  rw [S2proj, Qproj, X1proj, keptList_lone]
  ext i j
  fin_cases i <;> fin_cases j <;>
    simp [embedMat, buildX, Matrix.mul_apply, Fin.sum_univ_succ,
      Matrix.one_apply, Matrix.sub_apply, Matrix.transpose_apply]

/-- Concrete instantiation of (amended) C9 over `ℚ`: a single rank-1
operator of unit norm gives identical direct and projective outputs. -/
theorem C9_witness :
    orthogonalization (1 : Matrix (Fin (1 + 0)) (Fin (1 + 0)) ℚ) 1 ![1] ![1]
        (1 / 2) false 0
      = orthogonalization_projective 1 0 1 1 ![1] ![1] 1 ![0] ![1] (1 / 2) := by
  exact C9_rank1_only_equivalence ℚ 1 1 1 ![1] ![1] 1 ![0] ![1] (1 / 2)
    (by ext i j
        fin_cases i <;> fin_cases j <;>
          simp [Matrix.mul_apply, Fin.sum_univ_succ, Matrix.diagonal_apply,
            Matrix.one_apply, Matrix.transpose_apply])
    (by simp)
    (by intro k hk
        fin_cases k
        norm_num)
    (by rw [keptList_lone]; rfl)
    (by rw [C9w_S2mat]
        ext i j
        fin_cases i <;> fin_cases j <;>
          simp [Matrix.mul_apply, Fin.sum_univ_succ, Matrix.diagonal_apply,
            Matrix.one_apply, Matrix.transpose_apply])
    (by simp)
    (by norm_num)

section ColumnSelection

variable {α : Type} [LinearOrderedField α]

open Matrix

lemma KT_diag_K {p : ℕ} (kept : List (Fin p)) (hnd : kept.Nodup)
    (f : Fin p → α) :
    (Kmat (α := α) kept)ᵀ * Matrix.diagonal f * Kmat kept
      = Matrix.diagonal fun j => f (kept.get j) := by
  ext j j'
  rw [Matrix.mul_apply]
  have hentry : ∀ k, ((Kmat (α := α) kept)ᵀ * Matrix.diagonal f) j k
      = Kmat (α := α) kept k j * f k := by
    intro k
    rw [Matrix.mul_diagonal, Matrix.transpose_apply]
  simp only [hentry]
  rw [Finset.sum_eq_single (kept.get j')]
  · by_cases hjj : j = j'
    · subst hjj
      simp [Kmat, Matrix.diagonal_apply_eq]
    · have hne : kept.get j' ≠ kept.get j := by
        intro hcon
        rw [hnd.get_inj_iff] at hcon
        exact hjj hcon.symm
      rw [Matrix.diagonal_apply_ne _ hjj]
      simp only [Kmat, Matrix.of_apply]
      rw [if_neg hne, zero_mul, zero_mul]
  · intro k _ hk
    simp only [Kmat, Matrix.of_apply]
    rw [if_neg hk, mul_zero]
  · intro hmem
    exact absurd (Finset.mem_univ _) hmem

lemma KT_K {p : ℕ} (kept : List (Fin p)) (hnd : kept.Nodup) :
    (Kmat (α := α) kept)ᵀ * Kmat kept
      = (1 : Matrix (Fin kept.length) (Fin kept.length) α) := by
  have h := KT_diag_K (α := α) kept hnd (fun _ => 1)
  rw [Matrix.diagonal_one, Matrix.mul_one] at h
  rw [h]
  exact Matrix.diagonal_one

lemma selMat_apply_lt {n : ℕ} (sq : Fin n → α) (kept : List (Fin n))
    (k c : Fin n) (hcl : (c : ℕ) < kept.length) :
    selMat (α := α) sq kept k c
      = if k = kept.get ⟨(c : ℕ), hcl⟩ then (sq k)⁻¹ else 0 := by
  simp only [selMat, Matrix.of_apply, dif_pos hcl]

lemma selMat_mul_transpose {n : ℕ} (sq : Fin n → α) (kept : List (Fin n))
    (hnd : kept.Nodup) :
    selMat (α := α) sq kept * (selMat sq kept)ᵀ
      = Matrix.diagonal fun k => if k ∈ kept then (sq k)⁻¹ * (sq k)⁻¹ else 0 := by
  have hlen : kept.length ≤ n := by
    simpa using hnd.length_le_card
  ext k l
  rw [Matrix.mul_apply]
  simp only [Matrix.transpose_apply]
  by_cases hk : k ∈ kept
  · obtain ⟨c0, hc0⟩ := List.mem_iff_get.mp hk
    have hc0n : (c0 : ℕ) < n := lt_of_lt_of_le c0.isLt hlen
    rw [Finset.sum_eq_single (⟨(c0 : ℕ), hc0n⟩ : Fin n)]
    · rw [selMat_apply_lt sq kept k _ c0.isLt, selMat_apply_lt sq kept l _ c0.isLt]
      have hmk : (⟨((⟨(c0 : ℕ), hc0n⟩ : Fin n) : ℕ), c0.isLt⟩ : Fin kept.length)
          = c0 := Fin.ext rfl
      rw [hmk, hc0, if_pos rfl]
      by_cases hkl : k = l
      · subst hkl
        rw [if_pos rfl, Matrix.diagonal_apply_eq, if_pos hk]
      · rw [if_neg fun hcon => hkl hcon.symm, mul_zero,
          Matrix.diagonal_apply_ne _ hkl]
    · intro c _ hc
      by_cases hcl : (c : ℕ) < kept.length
      · rw [selMat_apply_lt sq kept k c hcl]
        by_cases hkc : k = kept.get ⟨(c : ℕ), hcl⟩
        · exfalso
          apply hc
          apply Fin.ext
          show (c : ℕ) = (c0 : ℕ)
          have hgg : kept.get ⟨(c : ℕ), hcl⟩ = kept.get c0 := by rw [← hkc, hc0]
          rw [hnd.get_inj_iff] at hgg
          simpa using congrArg Fin.val hgg
        · rw [if_neg hkc, zero_mul]
      · simp only [selMat, Matrix.of_apply, dif_neg hcl, zero_mul]
    · intro hmem
      exact absurd (Finset.mem_univ _) hmem
  · have hzero : ∀ c ∈ Finset.univ,
        selMat (α := α) sq kept k c * selMat sq kept l c = 0 := by
      intro c _
      by_cases hcl : (c : ℕ) < kept.length
      · rw [selMat_apply_lt sq kept k c hcl]
        have hkc : k ≠ kept.get ⟨(c : ℕ), hcl⟩ := by
          intro hcon
          exact hk (hcon ▸ kept.get_mem _ _)
        rw [if_neg hkc, zero_mul]
      · simp only [selMat, Matrix.of_apply, dif_neg hcl, zero_mul]
    rw [Finset.sum_eq_zero hzero]
    by_cases hkl : k = l
    · subst hkl
      rw [Matrix.diagonal_apply_eq, if_neg hk]
    · rw [Matrix.diagonal_apply_ne _ hkl]

lemma dotProduct_mulVec_left {p r : ℕ} (M : Matrix (Fin p) (Fin r) α)
    (x : Fin r → α) (y : Fin p → α) :
    Matrix.dotProduct (M.mulVec x) y = Matrix.dotProduct x (Mᵀ.mulVec y) := by
  rw [Matrix.dotProduct_comm, Matrix.dotProduct_mulVec, Matrix.mulVec_transpose,
    Matrix.dotProduct_comm]

lemma dot_sandwich {p r : ℕ} (M : Matrix (Fin p) (Fin r) α)
    (A : Matrix (Fin p) (Fin p) α) (x : Fin r → α) :
    Matrix.dotProduct (M.mulVec x) (A.mulVec (M.mulVec x))
      = Matrix.dotProduct x ((Mᵀ * A * M).mulVec x) := by
  rw [dotProduct_mulVec_left, ← Matrix.mulVec_mulVec, ← Matrix.mulVec_mulVec]

lemma dot_diagonal_quad {p : ℕ} (μ : Fin p → α) (z : Fin p → α) :
    Matrix.dotProduct z ((Matrix.diagonal μ).mulVec z)
      = ∑ k, μ k * z k ^ 2 := by
  unfold Matrix.dotProduct
  refine Finset.sum_congr rfl fun k _ => ?_
  rw [Matrix.mulVec_diagonal]
  ring

end ColumnSelection

section ProjBound

variable {α : Type} [LinearOrderedField α]

open Matrix

lemma buildX_mul_indicator {n : ℕ} (U : Matrix (Fin n) (Fin n) α)
    (sq : Fin n → α) (kept : List (Fin n)) :
    buildX U sq kept
        * Matrix.diagonal (fun c : Fin n => if (c : ℕ) < kept.length then (1 : α) else 0)
      = buildX U sq kept := by
  ext i c
  rw [Matrix.mul_diagonal]
  by_cases hc : (c : ℕ) < kept.length
  · rw [if_pos hc, mul_one]
  · simp only [buildX, Matrix.of_apply, dif_neg hc]
    rw [if_neg hc, mul_zero]

lemma proj_bound_R {n1 n2 : ℕ} (S : Matrix (Fin (n1 + n2)) (Fin (n1 + n2)) α)
    (U1 : Matrix (Fin n1) (Fin n1) α) (Λ1 sq1 : Fin n1 → α) (thres : α)
    (hS : Sᵀ = S)
    (h1 : S1block S = U1 * Matrix.diagonal Λ1 * U1ᵀ) (hU1 : U1ᵀ * U1 = 1)
    (hsq1 : ∀ k ∈ keptList Λ1 thres, sq1 k * sq1 k = Λ1 k ∧ sq1 k ≠ 0) :
    (embedMat (α := α) n1 n2)ᵀ * S2proj n1 n2 S U1 Λ1 sq1 thres * embedMat n1 n2
      = U1 * Matrix.diagonal
          (fun k => if k ∈ keptList Λ1 thres then 0 else Λ1 k) * U1ᵀ := by
  have hS1 : (S1block S)ᵀ = S1block S := by
    rw [h1]
    rw [Matrix.transpose_mul, Matrix.transpose_mul, Matrix.transpose_transpose,
      Matrix.diagonal_transpose]
    simp only [Matrix.mul_assoc]
  have key := embed_sandwich (α := α) S
  have keyA : (embedMat (α := α) n1 n2)ᵀ * (S * embedMat n1 n2) = S1block S := by
    rw [← key]
    simp only [Matrix.mul_assoc]
  -- Step A: Q * E = E * (1 - W * (Wᵀ * S1))
  have hQE : Qproj n1 n2 S U1 Λ1 sq1 thres * embedMat n1 n2
      = embedMat n1 n2
        * (1 - buildX U1 sq1 (keptList Λ1 thres)
            * ((buildX U1 sq1 (keptList Λ1 thres))ᵀ * S1block S)) := by
    unfold Qproj X1proj
    rw [Matrix.sub_mul, Matrix.one_mul, Matrix.mul_sub, Matrix.mul_one,
      Matrix.transpose_mul]
    congr 1
    simp only [Matrix.mul_assoc]
    rw [keyA]
  -- Step B: Eᵀ S2 E = Zᵀ S1 Z with Z = 1 - W (Wᵀ S1)
  have hQEt := congrArg Matrix.transpose hQE
  rw [Matrix.transpose_mul, Matrix.transpose_mul] at hQEt
  have hR1 : (embedMat (α := α) n1 n2)ᵀ * S2proj n1 n2 S U1 Λ1 sq1 thres
        * embedMat n1 n2
      = (1 - buildX U1 sq1 (keptList Λ1 thres)
            * ((buildX U1 sq1 (keptList Λ1 thres))ᵀ * S1block S))ᵀ
        * S1block S
        * (1 - buildX U1 sq1 (keptList Λ1 thres)
            * ((buildX U1 sq1 (keptList Λ1 thres))ᵀ * S1block S)) := by
    unfold S2proj
    have hstep : (embedMat (α := α) n1 n2)ᵀ
          * ((Qproj n1 n2 S U1 Λ1 sq1 thres)ᵀ * S * Qproj n1 n2 S U1 Λ1 sq1 thres)
          * embedMat n1 n2
        = ((embedMat (α := α) n1 n2)ᵀ * (Qproj n1 n2 S U1 Λ1 sq1 thres)ᵀ)
          * (S * (Qproj n1 n2 S U1 Λ1 sq1 thres * embedMat (α := α) n1 n2)) := by
      simp only [Matrix.mul_assoc]
    rw [hstep, hQEt, hQE]
    have hstep2 : ((1 - buildX U1 sq1 (keptList Λ1 thres)
            * ((buildX U1 sq1 (keptList Λ1 thres))ᵀ * S1block S))ᵀ
          * (embedMat (α := α) n1 n2)ᵀ)
        * (S * (embedMat (α := α) n1 n2 * (1 - buildX U1 sq1 (keptList Λ1 thres)
            * ((buildX U1 sq1 (keptList Λ1 thres))ᵀ * S1block S))))
        = (1 - buildX U1 sq1 (keptList Λ1 thres)
            * ((buildX U1 sq1 (keptList Λ1 thres))ᵀ * S1block S))ᵀ
          * (((embedMat (α := α) n1 n2)ᵀ * (S * embedMat n1 n2))
            * (1 - buildX U1 sq1 (keptList Λ1 thres)
              * ((buildX U1 sq1 (keptList Λ1 thres))ᵀ * S1block S))) := by
      simp only [Matrix.mul_assoc]
    rw [hstep2, keyA]
    simp only [Matrix.mul_assoc]
  rw [hR1]
  -- Step C/D: expand and collapse
  have hWSW := buildX_sandwich (S1block S) U1 Λ1 sq1 (keptList Λ1 thres)
    (eigh_sandwich (S1block S) U1 Λ1 h1 hU1) (keptList_nodup Λ1 thres) hsq1
  have hWD := buildX_mul_indicator U1 sq1 (keptList Λ1 thres)
  -- transpose of Z
  have hZt : (1 - buildX U1 sq1 (keptList Λ1 thres)
        * ((buildX U1 sq1 (keptList Λ1 thres))ᵀ * S1block S))ᵀ
      = 1 - S1block S * buildX U1 sq1 (keptList Λ1 thres)
          * (buildX U1 sq1 (keptList Λ1 thres))ᵀ := by
    rw [Matrix.transpose_sub, Matrix.transpose_one, Matrix.transpose_mul,
      Matrix.transpose_mul, Matrix.transpose_transpose, hS1]
  rw [hZt]
  -- abbreviate via generalized names is not possible; expand directly
  rw [Matrix.sub_mul, Matrix.one_mul, Matrix.mul_sub, Matrix.mul_one,
    Matrix.sub_mul]
  -- remaining: S1 - S1*(W*(Wᵀ*S1)) - (S1*W*Wᵀ*S1 - S1*W*Wᵀ*(S1*(W*(Wᵀ*S1))))
  have hc1 : S1block S * buildX U1 sq1 (keptList Λ1 thres)
        * (buildX U1 sq1 (keptList Λ1 thres))ᵀ * S1block S
      = S1block S * (buildX U1 sq1 (keptList Λ1 thres)
        * ((buildX U1 sq1 (keptList Λ1 thres))ᵀ * S1block S)) := by
    simp only [Matrix.mul_assoc]
  have hc2 : S1block S * buildX U1 sq1 (keptList Λ1 thres)
        * (buildX U1 sq1 (keptList Λ1 thres))ᵀ * S1block S
        * (buildX U1 sq1 (keptList Λ1 thres)
          * ((buildX U1 sq1 (keptList Λ1 thres))ᵀ * S1block S))
      = S1block S * (buildX U1 sq1 (keptList Λ1 thres)
          * ((buildX U1 sq1 (keptList Λ1 thres))ᵀ * S1block S)) := by
    calc S1block S * buildX U1 sq1 (keptList Λ1 thres)
          * (buildX U1 sq1 (keptList Λ1 thres))ᵀ * S1block S
          * (buildX U1 sq1 (keptList Λ1 thres)
            * ((buildX U1 sq1 (keptList Λ1 thres))ᵀ * S1block S))
        = S1block S * ((buildX U1 sq1 (keptList Λ1 thres)
            * ((buildX U1 sq1 (keptList Λ1 thres))ᵀ * S1block S
              * buildX U1 sq1 (keptList Λ1 thres)))
          * ((buildX U1 sq1 (keptList Λ1 thres))ᵀ * S1block S)) := by
          simp only [Matrix.mul_assoc]
      _ = S1block S * ((buildX U1 sq1 (keptList Λ1 thres)
            * Matrix.diagonal (fun c : Fin n1 =>
                if (c : ℕ) < (keptList Λ1 thres).length then 1 else 0))
          * ((buildX U1 sq1 (keptList Λ1 thres))ᵀ * S1block S)) := by
          rw [hWSW]
      _ = S1block S * (buildX U1 sq1 (keptList Λ1 thres)
          * ((buildX U1 sq1 (keptList Λ1 thres))ᵀ * S1block S)) := by
          rw [hWD]
  rw [hc2, hc1]
  -- now: S1 - S1(W(WᵀS1)) - (S1(W(WᵀS1)) - S1(W(WᵀS1))) = S1 - S1(W(WᵀS1))
  rw [sub_self, sub_zero]
  -- Step D: S1 * (W * (Wᵀ * S1)) = U1 diag κ U1ᵀ
  have hD : S1block S * (buildX U1 sq1 (keptList Λ1 thres)
        * ((buildX U1 sq1 (keptList Λ1 thres))ᵀ * S1block S))
      = U1 * Matrix.diagonal
          (fun k => if k ∈ keptList Λ1 thres then Λ1 k else 0) * U1ᵀ := by
    rw [buildX_eq_mul_selMat, h1]
    calc U1 * Matrix.diagonal Λ1 * U1ᵀ * (U1 * selMat sq1 (keptList Λ1 thres)
          * ((U1 * selMat sq1 (keptList Λ1 thres))ᵀ
            * (U1 * Matrix.diagonal Λ1 * U1ᵀ)))
        = U1 * (Matrix.diagonal Λ1 * ((U1ᵀ * U1) * (selMat sq1 (keptList Λ1 thres)
            * ((selMat sq1 (keptList Λ1 thres))ᵀ * ((U1ᵀ * U1)
              * (Matrix.diagonal Λ1 * U1ᵀ)))))) := by
          rw [Matrix.transpose_mul]
          simp only [Matrix.mul_assoc]
      _ = U1 * (Matrix.diagonal Λ1 * (selMat sq1 (keptList Λ1 thres)
            * ((selMat sq1 (keptList Λ1 thres))ᵀ
              * (Matrix.diagonal Λ1 * U1ᵀ)))) := by
          rw [hU1, Matrix.one_mul, Matrix.one_mul]
      _ = U1 * ((Matrix.diagonal Λ1 * (selMat sq1 (keptList Λ1 thres)
            * (selMat sq1 (keptList Λ1 thres))ᵀ) * Matrix.diagonal Λ1) * U1ᵀ) := by
          simp only [Matrix.mul_assoc]
      _ = U1 * Matrix.diagonal
            (fun k => if k ∈ keptList Λ1 thres then Λ1 k else 0) * U1ᵀ := by
          rw [selMat_mul_transpose sq1 (keptList Λ1 thres) (keptList_nodup Λ1 thres),
            Matrix.diagonal_mul_diagonal, Matrix.diagonal_mul_diagonal]
          simp only [Matrix.mul_assoc]
          have hfun : (fun i => (Λ1 i * if i ∈ keptList Λ1 thres
                then (sq1 i)⁻¹ * (sq1 i)⁻¹ else 0) * Λ1 i)
              = fun k => if k ∈ keptList Λ1 thres then Λ1 k else 0 := by
            funext k
            by_cases hk : k ∈ keptList Λ1 thres
            · obtain ⟨hsq, hne⟩ := hsq1 k hk
              rw [if_pos hk, if_pos hk, ← hsq]
              field_simp
            · rw [if_neg hk, if_neg hk, mul_zero, zero_mul]
          rw [hfun]
  rw [hD, h1]
  -- S1 - U1 κ U1ᵀ = U1 (Λ1 - κ) U1ᵀ = U1 μ U1ᵀ
  rw [← Matrix.sub_mul, ← Matrix.mul_sub, Matrix.diagonal_sub]
  have hfun2 : (fun i => Λ1 i - if i ∈ keptList Λ1 thres then Λ1 i else 0)
      = fun k => if k ∈ keptList Λ1 thres then 0 else Λ1 k := by
    funext k
    by_cases hk : k ∈ keptList Λ1 thres
    · rw [if_pos hk, if_pos hk, sub_self]
    · rw [if_neg hk, if_neg hk, sub_zero]
  rw [hfun2]

end ProjBound

section ProjBound2

variable {α : Type} [LinearOrderedField α]

open Matrix

lemma projBasisMat_mulVec (n1 n2 : ℕ)
    (U2 : Matrix (Fin (n1 + n2)) (Fin (n1 + n2)) α)
    (kl2 : List (Fin (n1 + n2))) (x : Fin (n1 + kl2.length) → α) :
    (projBasisMat n1 n2 U2 kl2).mulVec x
      = (embedMat (α := α) n1 n2).mulVec
          (fun a => x (Fin.castAdd kl2.length a))
        + (U2 * Kmat kl2).mulVec (fun j => x (Fin.natAdd n1 j)) := by
  funext i
  simp only [Matrix.mulVec, Matrix.dotProduct, Pi.add_apply]
  rw [Fin.sum_univ_add]
  congr 1
  · refine Finset.sum_congr rfl fun a _ => ?_
    simp only [projBasisMat, Matrix.of_apply]
    rw [dif_pos (show ((Fin.castAdd kl2.length a : Fin (n1 + kl2.length)) : ℕ) < n1
      from a.isLt)]
    have hmk : (⟨((Fin.castAdd kl2.length a : Fin (n1 + kl2.length)) : ℕ),
        a.isLt⟩ : Fin n1) = a := Fin.ext rfl
    rw [hmk]
  · refine Finset.sum_congr rfl fun j _ => ?_
    simp only [projBasisMat, Matrix.of_apply]
    rw [dif_neg (show ¬((Fin.natAdd n1 j : Fin (n1 + kl2.length)) : ℕ) < n1
      from not_lt.mpr (Nat.le_add_right n1 (j : ℕ)))]
    have hmk : (⟨((Fin.natAdd n1 j : Fin (n1 + kl2.length)) : ℕ) - n1,
          by have := j.isLt; omega⟩ : Fin kl2.length) = j := by
      apply Fin.ext
      show n1 + (j : ℕ) - n1 = (j : ℕ)
      omega
    exact congrArg
      (fun t => ((U2 * Kmat kl2 : Matrix (Fin (n1 + n2)) (Fin kl2.length) α)) i t
        * x (Fin.natAdd n1 j)) hmk

lemma dot_orthonormal_self {p r : ℕ} (M : Matrix (Fin p) (Fin r) α)
    (hM : Mᵀ * M = 1) (x : Fin r → α) :
    Matrix.dotProduct (M.mulVec x) (M.mulVec x) = Matrix.dotProduct x x := by
  have h := dot_sandwich M 1 x
  rw [Matrix.one_mulVec, Matrix.mul_one, hM, Matrix.one_mulVec] at h
  exact h

lemma conj_orthonormal {p r : ℕ} (U : Matrix (Fin p) (Fin p) α)
    (hU : Uᵀ * U = 1) (A : Matrix (Fin p) (Fin p) α)
    (K : Matrix (Fin p) (Fin r) α) :
    (U * K)ᵀ * (U * A * Uᵀ) * (U * K) = Kᵀ * A * K := by
  rw [Matrix.transpose_mul]
  calc Kᵀ * Uᵀ * (U * A * Uᵀ) * (U * K)
      = Kᵀ * ((Uᵀ * U) * (A * ((Uᵀ * U) * K))) := by
        simp only [Matrix.mul_assoc]
    _ = Kᵀ * (A * K) := by rw [hU, Matrix.one_mul, Matrix.one_mul]
    _ = Kᵀ * A * K := by simp only [Matrix.mul_assoc]

lemma mul_orthonormal_gram {p r : ℕ} (U : Matrix (Fin p) (Fin p) α)
    (hU : Uᵀ * U = 1) (K : Matrix (Fin p) (Fin r) α) :
    (U * K)ᵀ * (U * K) = Kᵀ * K := by
  rw [Matrix.transpose_mul]
  calc Kᵀ * Uᵀ * (U * K) = Kᵀ * ((Uᵀ * U) * K) := by
        simp only [Matrix.mul_assoc]
    _ = Kᵀ * K := by rw [hU, Matrix.one_mul]

lemma proj_numnonred_le {n1 n2 : ℕ}
    (S : Matrix (Fin (n1 + n2)) (Fin (n1 + n2)) α)
    (U1 : Matrix (Fin n1) (Fin n1) α) (Λ1 sq1 : Fin n1 → α)
    (U2 : Matrix (Fin (n1 + n2)) (Fin (n1 + n2)) α) (Λ2 : Fin (n1 + n2) → α)
    (thres : α) (hS : Sᵀ = S)
    (h1 : S1block S = U1 * Matrix.diagonal Λ1 * U1ᵀ) (hU1 : U1ᵀ * U1 = 1)
    (hsq1 : ∀ k ∈ keptList Λ1 thres, sq1 k * sq1 k = Λ1 k ∧ sq1 k ≠ 0)
    (h2 : S2proj n1 n2 S U1 Λ1 sq1 thres = U2 * Matrix.diagonal Λ2 * U2ᵀ)
    (hU2 : U2ᵀ * U2 = 1) (hthres : 0 ≤ thres) :
    orthogonalization_projective_numnonred n1 n2 Λ2 thres ≤ n1 + n2 := by
  have hnd2 : (keptList Λ2 thres).Nodup := keptList_nodup Λ2 thres
  have hVSV := (conj_orthonormal U2 hU2 (Matrix.diagonal Λ2)
    (Kmat (keptList Λ2 thres))).trans (KT_diag_K (keptList Λ2 thres) hnd2 Λ2)
  have hVV := (mul_orthonormal_gram U2 hU2 (Kmat (keptList Λ2 thres))).trans
    (KT_K (keptList Λ2 thres) hnd2)
  have hR := proj_bound_R S U1 Λ1 sq1 thres hS h1 hU1 hsq1
  have hU1' : U1 * U1ᵀ = 1 := Matrix.mul_eq_one_comm.mp hU1
  have hE := embed_orthonormal (α := α) n1 n2
  -- kernel property of B = [E | U2_kept]
  have hker : ∀ x : Fin (n1 + (keptList Λ2 thres).length) → α,
      (projBasisMat n1 n2 U2 (keptList Λ2 thres)).mulVec x = 0 → x = 0 := by
    intro x hx
    rw [projBasisMat_mulVec] at hx
    have hEc : (embedMat (α := α) n1 n2).mulVec
          (fun a => x (Fin.castAdd (keptList Λ2 thres).length a))
        = -((U2 * Kmat (keptList Λ2 thres)).mulVec
          (fun j => x (Fin.natAdd n1 j))) :=
      eq_neg_of_add_eq_zero_left hx
    -- quadratic form of S2 on y = V d, computed twice
    have hlow : Matrix.dotProduct
          ((U2 * Kmat (keptList Λ2 thres)).mulVec (fun j => x (Fin.natAdd n1 j)))
          ((S2proj n1 n2 S U1 Λ1 sq1 thres).mulVec
            ((U2 * Kmat (keptList Λ2 thres)).mulVec (fun j => x (Fin.natAdd n1 j))))
        = ∑ j, Λ2 ((keptList Λ2 thres).get j) * x (Fin.natAdd n1 j) ^ 2 := by
      rw [dot_sandwich, h2, hVSV, dot_diagonal_quad]
    have hVd : (U2 * Kmat (keptList Λ2 thres)).mulVec (fun j => x (Fin.natAdd n1 j))
        = -((embedMat (α := α) n1 n2).mulVec
          (fun a => x (Fin.castAdd (keptList Λ2 thres).length a))) := by
      rw [hEc, neg_neg]
    have hup : Matrix.dotProduct
          ((U2 * Kmat (keptList Λ2 thres)).mulVec (fun j => x (Fin.natAdd n1 j)))
          ((S2proj n1 n2 S U1 Λ1 sq1 thres).mulVec
            ((U2 * Kmat (keptList Λ2 thres)).mulVec (fun j => x (Fin.natAdd n1 j))))
        ≤ thres * Matrix.dotProduct (fun j => x (Fin.natAdd n1 j))
            (fun j => x (Fin.natAdd n1 j)) := by
      rw [hVd]
      rw [Matrix.mulVec_neg, Matrix.dotProduct_neg, Matrix.neg_dotProduct, neg_neg]
      rw [dot_sandwich, hR]
      have hsand : Matrix.dotProduct (fun a => x (Fin.castAdd (keptList Λ2 thres).length a))
            ((U1 * Matrix.diagonal (fun k => if k ∈ keptList Λ1 thres then 0 else Λ1 k)
              * U1ᵀ).mulVec (fun a => x (Fin.castAdd (keptList Λ2 thres).length a)))
          = Matrix.dotProduct
              (U1ᵀ.mulVec (fun a => x (Fin.castAdd (keptList Λ2 thres).length a)))
              ((Matrix.diagonal (fun k => if k ∈ keptList Λ1 thres then 0 else Λ1 k)).mulVec
                (U1ᵀ.mulVec (fun a => x (Fin.castAdd (keptList Λ2 thres).length a)))) := by
        rw [dot_sandwich U1ᵀ
          (Matrix.diagonal (fun k => if k ∈ keptList Λ1 thres then 0 else Λ1 k))
          (fun a => x (Fin.castAdd (keptList Λ2 thres).length a)),
          Matrix.transpose_transpose]
      rw [hsand, dot_diagonal_quad]
      have hbound : ∑ k, (if k ∈ keptList Λ1 thres then 0 else Λ1 k)
            * (U1ᵀ.mulVec (fun a => x (Fin.castAdd (keptList Λ2 thres).length a))) k ^ 2
          ≤ ∑ k, thres
            * (U1ᵀ.mulVec (fun a => x (Fin.castAdd (keptList Λ2 thres).length a))) k ^ 2 := by
        refine Finset.sum_le_sum fun k _ => ?_
        refine mul_le_mul_of_nonneg_right ?_ (sq_nonneg _)
        by_cases hk : k ∈ keptList Λ1 thres
        · rw [if_pos hk]
          exact hthres
        · rw [if_neg hk]
          exact not_lt.mp fun hcon => hk (mem_keptList.mpr hcon)
      refine hbound.trans (le_of_eq ?_)
      rw [← Finset.mul_sum]
      congr 1
      have hz := dot_orthonormal_self U1ᵀ
        (by rw [Matrix.transpose_transpose]; exact hU1')
        (fun a => x (Fin.castAdd (keptList Λ2 thres).length a))
      calc ∑ k, (U1ᵀ.mulVec (fun a => x (Fin.castAdd (keptList Λ2 thres).length a))) k ^ 2
          = Matrix.dotProduct
              (U1ᵀ.mulVec (fun a => x (Fin.castAdd (keptList Λ2 thres).length a)))
              (U1ᵀ.mulVec (fun a => x (Fin.castAdd (keptList Λ2 thres).length a))) := by
            unfold Matrix.dotProduct
            refine Finset.sum_congr rfl fun k _ => ?_
            ring
        _ = Matrix.dotProduct (fun a => x (Fin.castAdd (keptList Λ2 thres).length a))
              (fun a => x (Fin.castAdd (keptList Λ2 thres).length a)) := hz
        _ = Matrix.dotProduct
              ((embedMat (α := α) n1 n2).mulVec
                (fun a => x (Fin.castAdd (keptList Λ2 thres).length a)))
              ((embedMat (α := α) n1 n2).mulVec
                (fun a => x (Fin.castAdd (keptList Λ2 thres).length a))) :=
            (dot_orthonormal_self (embedMat (α := α) n1 n2) hE _).symm
        _ = Matrix.dotProduct
              ((U2 * Kmat (keptList Λ2 thres)).mulVec (fun j => x (Fin.natAdd n1 j)))
              ((U2 * Kmat (keptList Λ2 thres)).mulVec (fun j => x (Fin.natAdd n1 j))) := by
            rw [hVd, Matrix.dotProduct_neg, Matrix.neg_dotProduct, neg_neg]
        _ = Matrix.dotProduct (fun j => x (Fin.natAdd n1 j))
              (fun j => x (Fin.natAdd n1 j)) :=
            dot_orthonormal_self _ hVV _
    -- combine: each retained eigenvalue exceeds thres, so d = 0
    have hcomb : ∑ j, (Λ2 ((keptList Λ2 thres).get j) - thres)
          * x (Fin.natAdd n1 j) ^ 2 ≤ 0 := by
      have h := hup
      rw [hlow] at h
      have hdd : thres * Matrix.dotProduct (fun j => x (Fin.natAdd n1 j))
            (fun j => x (Fin.natAdd n1 j))
          = ∑ j, thres * x (Fin.natAdd n1 j) ^ 2 := by
        unfold Matrix.dotProduct
        rw [Finset.mul_sum]
        refine Finset.sum_congr rfl fun j _ => ?_
        ring
      rw [hdd] at h
      have hexp : ∀ j, (Λ2 ((keptList Λ2 thres).get j) - thres)
            * x (Fin.natAdd n1 j) ^ 2
          = Λ2 ((keptList Λ2 thres).get j) * x (Fin.natAdd n1 j) ^ 2
            - thres * x (Fin.natAdd n1 j) ^ 2 := fun j => by ring
      calc ∑ j, (Λ2 ((keptList Λ2 thres).get j) - thres) * x (Fin.natAdd n1 j) ^ 2
          = ∑ j, (Λ2 ((keptList Λ2 thres).get j) * x (Fin.natAdd n1 j) ^ 2
              - thres * x (Fin.natAdd n1 j) ^ 2) :=
            Finset.sum_congr rfl fun j _ => hexp j
        _ = (∑ j, Λ2 ((keptList Λ2 thres).get j) * x (Fin.natAdd n1 j) ^ 2)
            - ∑ j, thres * x (Fin.natAdd n1 j) ^ 2 := Finset.sum_sub_distrib
        _ ≤ 0 := sub_nonpos.mpr h
    have hterm : ∀ j ∈ Finset.univ, 0 ≤ (Λ2 ((keptList Λ2 thres).get j) - thres)
        * x (Fin.natAdd n1 j) ^ 2 := by
      intro j _
      refine mul_nonneg (sub_nonneg.mpr (le_of_lt ?_)) (sq_nonneg _)
      exact mem_keptList.mp ((keptList Λ2 thres).get_mem _ _)
    have hzero : ∀ j ∈ Finset.univ, (Λ2 ((keptList Λ2 thres).get j) - thres)
        * x (Fin.natAdd n1 j) ^ 2 = 0 := by
      rw [← Finset.sum_eq_zero_iff_of_nonneg hterm]
      exact le_antisymm hcomb (Finset.sum_nonneg hterm)
    have hd0 : ∀ j, x (Fin.natAdd n1 j) = 0 := by
      intro j
      have h := hzero j (Finset.mem_univ j)
      have hpos : Λ2 ((keptList Λ2 thres).get j) - thres ≠ 0 := by
        refine ne_of_gt (sub_pos.mpr ?_)
        exact mem_keptList.mp ((keptList Λ2 thres).get_mem _ _)
      have hsq0 := (mul_eq_zero.mp h).resolve_left hpos
      exact pow_eq_zero_iff (two_ne_zero) |>.mp hsq0
    -- hence also c = 0
    have hdfun : (fun j => x (Fin.natAdd n1 j)) = 0 := funext hd0
    have hEc0 : (embedMat (α := α) n1 n2).mulVec
        (fun a => x (Fin.castAdd (keptList Λ2 thres).length a)) = 0 := by
      rw [hEc, hdfun, Matrix.mulVec_zero, neg_zero]
    have hcc : Matrix.dotProduct (fun a => x (Fin.castAdd (keptList Λ2 thres).length a))
        (fun a => x (Fin.castAdd (keptList Λ2 thres).length a)) = 0 := by
      rw [← dot_orthonormal_self (embedMat (α := α) n1 n2) hE, hEc0]
      simp [Matrix.dotProduct]
    have hc0 : ∀ a, x (Fin.castAdd (keptList Λ2 thres).length a) = 0 := by
      intro a
      have hterm2 : ∀ b ∈ Finset.univ,
          0 ≤ x (Fin.castAdd (keptList Λ2 thres).length b)
            * x (Fin.castAdd (keptList Λ2 thres).length b) :=
        fun b _ => mul_self_nonneg _
      have := (Finset.sum_eq_zero_iff_of_nonneg hterm2).mp hcc a (Finset.mem_univ a)
      exact mul_self_eq_zero.mp this
    funext idx
    by_cases hidx : (idx : ℕ) < n1
    · have h := hc0 ⟨(idx : ℕ), hidx⟩
      have hcast : Fin.castAdd (keptList Λ2 thres).length
          (⟨(idx : ℕ), hidx⟩ : Fin n1) = idx := Fin.ext rfl
      rw [hcast] at h
      exact h
    · have hj : (idx : ℕ) - n1 < (keptList Λ2 thres).length := by
        have := idx.isLt
        omega
      have h := hd0 ⟨(idx : ℕ) - n1, hj⟩
      have hnat : Fin.natAdd n1 (⟨(idx : ℕ) - n1, hj⟩ : Fin (keptList Λ2 thres).length)
          = idx := by
        apply Fin.ext
        show n1 + ((idx : ℕ) - n1) = (idx : ℕ)
        omega
      rw [hnat] at h
      exact h
  -- injectivity and dimension count
  have hinj : Function.Injective
      ((projBasisMat n1 n2 U2 (keptList Λ2 thres)).mulVecLin) := by
    rw [injective_iff_map_eq_zero]
    intro x hx
    exact hker x (by simpa [Matrix.mulVecLin_apply] using hx)
  have hle := LinearMap.finrank_le_finrank_of_injective hinj
  rw [Module.finrank_pi, Module.finrank_pi] at hle
  simpa [orthogonalization_projective_numnonred, Fintype.card_fin] using hle

end ProjBound2

/-- C8, amended: in eigenvalue-threshold mode the retained rank is bounded by
the basis size for both variants — directly for `orthogonalization`, and by a
spectral argument for `orthogonalization_projective` (the padded singles and
the retained `S2`-eigenvectors are linearly independent). In fixed
retained-count mode, however, `numnonred` is the caller-supplied `num_op`
verbatim, which exceeds `N` whenever the caller passes `num_op > N` (see the
counterexample). -/
theorem C8_numnonred_bound :
    (∀ (α : Type) [inst : LinearOrderedField α] (n : ℕ) (Λ : Fin n → α)
        (thres : α) (num_op : ℕ),
      orthogonalization_numnonred false num_op Λ thres ≤ n)
    ∧ (∀ (α : Type) [inst : LinearOrderedField α] (n : ℕ) (Λ : Fin n → α)
        (thres : α) (num_op : ℕ),
      orthogonalization_numnonred true num_op Λ thres = num_op)
    ∧ (∀ (α : Type) [inst : LinearOrderedField α] (n1 n2 : ℕ)
        (S : Matrix (Fin (n1 + n2)) (Fin (n1 + n2)) α)
        (U1 : Matrix (Fin n1) (Fin n1) α) (Λ1 sq1 : Fin n1 → α)
        (U2 : Matrix (Fin (n1 + n2)) (Fin (n1 + n2)) α)
        (Λ2 : Fin (n1 + n2) → α) (thres : α),
      Sᵀ = S →
      S1block S = U1 * Matrix.diagonal Λ1 * U1ᵀ → U1ᵀ * U1 = 1 →
      (∀ k ∈ keptList Λ1 thres, sq1 k * sq1 k = Λ1 k ∧ sq1 k ≠ 0) →
      S2proj n1 n2 S U1 Λ1 sq1 thres = U2 * Matrix.diagonal Λ2 * U2ᵀ →
      U2ᵀ * U2 = 1 →
      0 ≤ thres →
      orthogonalization_projective_numnonred n1 n2 Λ2 thres ≤ n1 + n2) := by
  refine ⟨?_, ?_, ?_⟩
  · intro α _ n Λ thres num_op
    unfold orthogonalization_numnonred
    rw [if_neg (by decide)]
    exact keptList_length_le Λ thres
  · intro α _ n Λ thres num_op
    unfold orthogonalization_numnonred
    rw [if_pos rfl]
  · intro α _ n1 n2 S U1 Λ1 sq1 U2 Λ2 thres hS h1 hU1 hsq1 h2 hU2 hthres
    exact proj_numnonred_le S U1 Λ1 sq1 U2 Λ2 thres hS h1 hU1 hsq1 h2 hU2 hthres

/-- Concrete instantiation of (amended) C8 over `ℚ`: threshold-mode ranks
respect the bound on small valid inputs; const mode returns the caller
count. -/
theorem C8_witness :
    orthogonalization_numnonred false 0 (![1] : Fin 1 → ℚ) (1 / 2) ≤ 1
      ∧ orthogonalization_numnonred true 2 (![1] : Fin 1 → ℚ) (1 / 2) = 2
      ∧ orthogonalization_projective_numnonred 1 1 (![0, 1] : Fin (1 + 1) → ℚ)
          (1 / 2) ≤ 1 + 1 :=
  ⟨C8_numnonred_bound.1 ℚ 1 ![1] (1 / 2) 0,
   C8_numnonred_bound.2.1 ℚ 1 ![1] (1 / 2) 2,
   C8_numnonred_bound.2.2 ℚ 1 1 1 1 ![1] ![1] 1 ![0, 1] (1 / 2)
     (by simp)
     (by ext a b
         fin_cases a; fin_cases b
         simp [S1block, Matrix.mul_apply, Fin.sum_univ_succ,
           Matrix.diagonal_apply, Matrix.one_apply, Matrix.submatrix_apply])
     (by simp)
     (by intro k hk
         fin_cases k
         norm_num)
     (by rw [C1w_S2mat]
         ext i j
         fin_cases i <;> fin_cases j <;>
           simp [Matrix.mul_apply, Fin.sum_univ_succ, Matrix.diagonal_apply,
             Matrix.one_apply, Matrix.transpose_apply])
     (by simp)
     (by norm_num)⟩

/-- Refutation of C8 as stated: in fixed retained-count mode with a
caller-supplied `num_op = 2` on a one-vector basis (all oracle contracts
satisfied), the returned `numnonred` is 2, violating `numnonred ≤ N = 1`. -/
theorem C8_counterexample :
    C1w_S = 1 * Matrix.diagonal ![4] * (1 : Matrix (Fin 1) (Fin 1) ℚ)ᵀ
      ∧ (1 : Matrix (Fin 1) (Fin 1) ℚ)ᵀ * 1 = 1
      ∧ (∀ k ∈ keptOf true 2 (![4] : Fin 1 → ℚ) (1 / 2),
          (![2] : Fin 1 → ℚ) k * (![2] : Fin 1 → ℚ) k = (![4] : Fin 1 → ℚ) k
            ∧ (![2] : Fin 1 → ℚ) k ≠ 0)
      ∧ orthogonalization_numnonred true 2 (![4] : Fin 1 → ℚ) (1 / 2) = 2
      ∧ ¬(orthogonalization_numnonred true 2 (![4] : Fin 1 → ℚ) (1 / 2) ≤ 1) := by
  refine ⟨?_, by simp, ?_, ?_, ?_⟩
  · ext i j
    fin_cases i; fin_cases j
    simp [C1w_S, Matrix.mul_apply, Fin.sum_univ_succ, Matrix.diagonal_apply,
      Matrix.one_apply]
  · intro k hk
    fin_cases k
    norm_num
  · unfold orthogonalization_numnonred
    rw [if_pos rfl]
  · unfold orthogonalization_numnonred
    rw [if_pos rfl]
    decide

section TrustRegion

variable {α : Type} [LinearOrderedField α]

open Matrix

lemma sum_pad {n nn : ℕ} (h : nn ≤ n) (f : Fin nn → α) :
    ∑ x : Fin n, (if hx : (x : ℕ) < nn then f ⟨(x : ℕ), hx⟩ else 0) ^ 2
      = ∑ i : Fin nn, f i ^ 2 := by
  have hterm : ∀ x : Fin n,
      (if hx : (x : ℕ) < nn then f ⟨(x : ℕ), hx⟩ else 0) ^ 2
        = (fun m => if hm : m < nn then f ⟨m, hm⟩ ^ 2 else 0) (x : ℕ) := by
    intro x
    by_cases hx : (x : ℕ) < nn
    · rw [dif_pos hx]
      simp only [dif_pos hx]
    · rw [dif_neg hx]
      simp only [dif_neg hx]
      norm_num
  calc ∑ x : Fin n, (if hx : (x : ℕ) < nn then f ⟨(x : ℕ), hx⟩ else 0) ^ 2
      = ∑ x : Fin n, (fun m => if hm : m < nn then f ⟨m, hm⟩ ^ 2 else 0) (x : ℕ) :=
        Finset.sum_congr rfl fun x _ => hterm x
    _ = ∑ m in Finset.range n, (fun m => if hm : m < nn then f ⟨m, hm⟩ ^ 2 else 0) m :=
        Fin.sum_univ_eq_sum_range (fun m => if hm : m < nn then f ⟨m, hm⟩ ^ 2 else 0) n
    _ = ∑ m in Finset.range nn, (fun m => if hm : m < nn then f ⟨m, hm⟩ ^ 2 else 0) m := by
        refine (Finset.sum_subset (Finset.range_subset.mpr h) ?_).symm
        intro m _ hm
        rw [Finset.mem_range] at hm
        exact dif_neg hm
    _ = ∑ i : Fin nn, (fun m => if hm : m < nn then f ⟨m, hm⟩ ^ 2 else 0) (i : ℕ) :=
        (Fin.sum_univ_eq_sum_range
          (fun m => if hm : m < nn then f ⟨m, hm⟩ ^ 2 else 0) nn).symm
    _ = ∑ i : Fin nn, f i ^ 2 := by
        refine Finset.sum_congr rfl fun i _ => ?_
        simp only [dif_pos i.isLt]

/-- C3: the trust-region update never applies a non-redundant step larger
than the configured radius. For any residual, denominators and metric, with
`dK_short` the solver oracle's solution of the truncated system and `nrm`
the norm oracle of `dK_short`, every norm oracle of the applied step `dK`
is bounded by a nonnegative `update_radius`: an oversized Newton step is
rescaled to exactly the radius. -/
theorem C3_trust_region :
    ∀ (α : Type) [inst : LinearOrderedField α] (n nn : ℕ) (h : nn ≤ n)
      (residual denominators : Fin n → α) (S X : Matrix (Fin n) (Fin n) α)
      (eta radius : α) (dK_short : Fin nn → α) (nrm nrmOut : α),
    (update_Mn h (update_M X S denominators eta)).mulVec dK_short
        = update_kn h (update_R1 X residual) →
    nrm * nrm = (∑ i, dK_short i ^ 2) → 0 ≤ nrm →
    0 ≤ radius →
    nrmOut * nrmOut = (∑ x, dK_applied h dK_short nrm radius x ^ 2) →
    0 ≤ nrmOut →
    nrmOut ≤ radius := by
  intro α _ n nn h residual denominators S X eta radius dK_short nrm nrmOut
    hsolve hnrm hnrm0 hrad hout hout0
  by_cases hclip : radius < nrm
  · have hnrmpos : 0 < nrm := lt_of_le_of_lt hrad hclip
    have hne : nrm ≠ 0 := ne_of_gt hnrmpos
    have hsum : (∑ x, dK_applied h dK_short nrm radius x ^ 2) = radius * radius := by
      unfold dK_applied
      simp only [if_pos hclip]
      rw [sum_pad h (fun t => radius * dK_short t / nrm)]
      have hterm : ∀ i, (radius * dK_short i / nrm) ^ 2
          = radius * radius / (nrm * nrm) * dK_short i ^ 2 := by
        intro i
        field_simp
        ring
      calc ∑ i, (radius * dK_short i / nrm) ^ 2
          = ∑ i, radius * radius / (nrm * nrm) * dK_short i ^ 2 :=
            Finset.sum_congr rfl fun i _ => hterm i
        _ = radius * radius / (nrm * nrm) * ∑ i, dK_short i ^ 2 :=
            (Finset.mul_sum _ _ _).symm
        _ = radius * radius := by
            rw [← hnrm]
            field_simp
    rw [hsum] at hout
    rcases mul_self_eq_mul_self_iff.mp hout with heq | heq
    · exact le_of_eq heq
    · have : nrmOut ≤ 0 := by
        rw [heq]
        exact neg_nonpos.mpr hrad
      exact le_trans this hrad
  · have hle : nrm ≤ radius := not_lt.mp hclip
    have hsum : (∑ x, dK_applied h dK_short nrm radius x ^ 2) = nrm * nrm := by
      unfold dK_applied
      simp only [if_neg hclip]
      rw [sum_pad h dK_short, ← hnrm]
    rw [hsum] at hout
    rcases mul_self_eq_mul_self_iff.mp hout with heq | heq
    · exact le_trans (le_of_eq heq) hle
    · have : nrmOut ≤ 0 := by
        rw [heq]
        exact neg_nonpos.mpr hnrm0
      exact le_trans this hrad

/-- Concrete instantiation of C3 over `ℚ`: a raw step of norm 4 against
radius 2 is rescaled, and the applied step's norm equals the radius. -/
theorem C3_witness :
    (update_Mn (le_refl 1) (update_M (1 : Matrix (Fin 1) (Fin 1) ℚ) 1 ![0] 1)).mulVec
        ![4] = update_kn (le_refl 1) (update_R1 1 ![-4])
      ∧ (4 : ℚ) * 4 = (∑ i, (![4] : Fin 1 → ℚ) i ^ 2)
      ∧ (2 : ℚ) * 2 = (∑ x, dK_applied (le_refl 1) (![4] : Fin 1 → ℚ) 4 2 x ^ 2)
      ∧ (2 : ℚ) ≤ 2 := by
  have h1 : (update_Mn (le_refl 1) (update_M (1 : Matrix (Fin 1) (Fin 1) ℚ) 1 ![0] 1)).mulVec
      ![4] = update_kn (le_refl 1) (update_R1 1 ![-4]) := by
    funext i
    fin_cases i
    simp [update_Mn, update_M, update_kn, update_R1, Matrix.mulVec,
      Matrix.dotProduct, Matrix.mul_apply, Fin.sum_univ_succ, Matrix.one_apply,
      Matrix.transpose_apply]
  have h2 : (4 : ℚ) * 4 = (∑ i, (![4] : Fin 1 → ℚ) i ^ 2) := by
    norm_num [Fin.sum_univ_succ]
  have h3 : (2 : ℚ) * 2 = (∑ x, dK_applied (le_refl 1) (![4] : Fin 1 → ℚ) 4 2 x ^ 2) := by
    norm_num [dK_applied, Fin.sum_univ_succ]
  exact ⟨h1, h2, h3,
    C3_trust_region ℚ 1 1 (le_refl 1) ![-4] ![0] 1 1 1 2 ![4] 4 2 h1 h2
      (by norm_num) (by norm_num) h3 (by norm_num)⟩

end TrustRegion

section HbarBuilders

variable {α : Type} [LinearOrderedField α]

open Matrix

lemma writePair_symm {n : ℕ} (M : Matrix (Fin n) (Fin n) α) (p q : Fin n)
    (v : α) (hM : Mᵀ = M) :
    (writeEntry (writeEntry M p q v) q p v)ᵀ
      = writeEntry (writeEntry M p q v) q p v := by
  ext a b
  have hMab : M b a = M a b := Matrix.ext_iff.mpr hM a b
  simp only [writeEntry, Matrix.transpose_apply, Matrix.of_apply]
  by_cases h1 : a = q ∧ b = p
  · obtain ⟨ha, hb⟩ := h1
    subst ha
    subst hb
    simp
  · have h1' : ¬(b = p ∧ a = q) := fun hcon => h1 ⟨hcon.2, hcon.1⟩
    rw [if_neg h1']
    by_cases h2 : a = p ∧ b = q
    · obtain ⟨ha, hb⟩ := h2
      subst ha
      subst hb
      simp
    · have h2' : ¬(b = q ∧ a = p) := fun hcon => h2 ⟨hcon.2, hcon.1⟩
      rw [if_neg h2', if_neg h1, if_neg h2]
      exact hMab

lemma foldl_symm_preserving {n : ℕ} {σ : Type}
    (step : Matrix (Fin n) (Fin n) α → σ → Matrix (Fin n) (Fin n) α)
    (hstep : ∀ M s, Mᵀ = M → (step M s)ᵀ = step M s) (l : List σ) :
    ∀ M : Matrix (Fin n) (Fin n) α, Mᵀ = M →
      (List.foldl step M l)ᵀ = List.foldl step M l := by
  induction l with
  | nil => intro M hM; exact hM
  | cons s rest ih =>
    intro M hM
    exact ih (step M s) (hstep M s hM)

end HbarBuilders

/-- C7, amended: the operator-product-reuse and commutator-recursive
builders return exactly symmetric matrices, because every computed element
is explicitly written to both `[i, j]` and `[j, i]`. The naive builder
performs no such symmetrization: its entry `(i, j)` is the bare backend
overlap, which differs from entry `(j, i)` whenever screening makes the
conjugated-operator evaluations asymmetric (see the counterexample). -/
theorem C7_hbar_symmetry :
    (∀ (α : Type) [inst : LinearOrderedField α] (V : Type) (n : ℕ)
        (basis : Fin n → V) (expP ham : V → V) (ovl : V → V → α),
      (get_hbar_oprod basis expP ham ovl)ᵀ = get_hbar_oprod basis expP ham ovl)
    ∧ (∀ (α : Type) [inst : LinearOrderedField α] (V : Type) (n ncomm : ℕ)
        (basis : Fin n → V) (applyA ham : V → V) (ovl : V → V → α),
      (get_hbar_commutator basis applyA ham ovl ncomm)ᵀ
        = get_hbar_commutator basis applyA ham ovl ncomm) := by
  constructor
  · intro α _ V n basis expP ham ovl
    unfold get_hbar_oprod
    refine foldl_symm_preserving _ ?_ _ 0 ?_
    · intro M s hM
      exact writePair_symm M s.1 s.2 _ hM
    · rw [Matrix.transpose_zero]
  · intro α _ V n ncomm basis applyA ham ovl
    unfold get_hbar_commutator
    refine foldl_symm_preserving _ ?_ _ 0 ?_
    · intro M s hM
      exact writePair_symm M s.2 s.1 _ hM
    · rw [Matrix.transpose_zero]

/-- Refutation of C7 as stated: the naive builder applies no symmetrization;
with a backend overlap oracle that is asymmetric on the conjugated vectors
(as screening produces), `Hbar_ic[1, 0] = 1` but `Hbar_ic[0, 1] = 0`. -/
theorem C7_counterexample :
    get_hbar_naive (V := ℕ) (fun i : Fin 2 => (i : ℕ)) id id id
        (fun a b => if a = 0 ∧ b = 1 then (1 : ℚ) else 0) 1 0
      ≠ get_hbar_naive (V := ℕ) (fun i : Fin 2 => (i : ℕ)) id id id
        (fun a b => if a = 0 ∧ b = 1 then (1 : ℚ) else 0) 0 1 := by
  simp [get_hbar_naive]
